import Mathlib

/-!
Verification development for an LALR(1) parser generator written in C++.

The development shallowly embeds the grammar-analysis and table-construction
engine (symbol table, productions, augmentation, nullability / FIRST / FOLLOW
fixed points, the LR(0) automaton, LALR(1) table emission with conflict
recording) and the table-driven shift/reduce driver, and proves or refutes
the specified properties about them.

Embedding conventions:
* C++ `SymbolPtr` / `ProductionPtr` values are interned handles compared by
  pointer; symbols obtained through the symbol table are unique per
  (name, kind, token-kind), so the embedding uses structural values with
  decidable equality.
* `std::set` / `std::map` containers are embedded as lists (association
  lists) kept in insertion order.  The C++ containers iterate in pointer
  order, which is unspecified across runs; where an iteration order matters
  the embedding fixes insertion order and the accompanying comments note it.
* `while (changed)` fixed-point loops are embedded as fuelled iteration with
  enough fuel to reach the fixed point, which is then proved to be reached.
* C++ exceptions and error returns become `Except` values.
-/

namespace Lalr1

/-- The apostrophe character, used by `Grammar::augment` to derive the
augmented start symbol's name and by the generator to recognise it. -/
def apostrophe : Char := Char.ofNat 39

/-- `enum class TokenType` from token.h; the embedding only needs the
numeric tag.  `EOF_TOKEN = 0`. -/
abbrev TokenType := Nat

/-- `TokenType::EOF_TOKEN`. -/
def EOF_TOKEN : TokenType := 0

/-- `enum class SymbolType` from symbol.h. -/
inductive SymbolType where
  | terminal
  | nonterminal
  | epsilon
  | endOfInput
deriving DecidableEq, Repr

/-- `class Symbol` from symbol.h: identity is (name, type, token_type).
Symbols created by `Symbol(name, SymbolType)` carry `EOF_TOKEN` as their
token type. -/
structure Symbol where
  name : String
  type : SymbolType
  token_type : TokenType
deriving DecidableEq, Repr

def Symbol.is_terminal (s : Symbol) : Bool := s.type == SymbolType.terminal

def Symbol.is_nonterminal (s : Symbol) : Bool := s.type == SymbolType.nonterminal

def Symbol.is_epsilon (s : Symbol) : Bool := s.type == SymbolType.epsilon

def Symbol.is_end_of_input (s : Symbol) : Bool := s.type == SymbolType.endOfInput

/-- The unique epsilon singleton created in the `SymbolTable` constructor. -/
def epsilonSymbol : Symbol := ⟨"ε", SymbolType.epsilon, EOF_TOKEN⟩

/-- The unique end-of-input singleton (written `$`) created in the
`SymbolTable` constructor. -/
def endOfInputSymbol : Symbol := ⟨"$", SymbolType.endOfInput, EOF_TOKEN⟩

/-- `class Production`: an lhs symbol and an ordered rhs. -/
structure Production where
  lhs : Symbol
  rhs : List Symbol
deriving DecidableEq, Repr

/-- `Production::is_epsilon_production`: the rhs is exactly one symbol and
that symbol is epsilon-typed. -/
def Production.is_epsilon_production (p : Production) : Bool :=
  match p.rhs with
  | [s] => s.is_epsilon
  | _ => false

/-- `class Grammar` together with its embedded `SymbolTable`: the symbol
table's contents (in insertion order, the two singletons first), the ordered
production list, the optional start symbol and the augmentation flag.  The
C++ class also carries memoised FIRST/FOLLOW/nullability caches; the
embedding recomputes them functionally, so the caches and `clear_cache`
have no counterpart. -/
structure Grammar where
  symbols : List Symbol
  productions : List Production
  start_symbol : Option Symbol
  is_augmented : Bool
deriving DecidableEq, Repr

/-- The freshly constructed grammar: `Grammar::Grammar()` plus the
`SymbolTable` constructor inserting ε and $. -/
def emptyGrammar : Grammar :=
  { symbols := [epsilonSymbol, endOfInputSymbol]
  , productions := []
  , start_symbol := none
  , is_augmented := false }

/-- `SymbolTable::get_terminal`: return the interned terminal with this
name and token type, creating and inserting it when absent. -/
def Grammar.get_terminal (g : Grammar) (name : String) (tt : TokenType) :
    Symbol × Grammar :=
  match g.symbols.find? (fun s => s.name == name && s.is_terminal && s.token_type == tt) with
  | some s => (s, g)
  | none =>
      let s : Symbol := ⟨name, SymbolType.terminal, tt⟩
      (s, { g with symbols := g.symbols ++ [s] })

/-- `SymbolTable::get_nonterminal`: return the interned nonterminal with
this name, creating and inserting it when absent. -/
def Grammar.get_nonterminal (g : Grammar) (name : String) :
    Symbol × Grammar :=
  match g.symbols.find? (fun s => s.name == name && s.is_nonterminal) with
  | some s => (s, g)
  | none =>
      let s : Symbol := ⟨name, SymbolType.nonterminal, EOF_TOKEN⟩
      (s, { g with symbols := g.symbols ++ [s] })

/-- `Grammar::add_production(lhs, rhs)`: append the production.  (The C++
function also invalidates the set caches, which the embedding recomputes.) -/
def Grammar.add_production (g : Grammar) (lhs : Symbol) (rhs : List Symbol) :
    Grammar :=
  { g with productions := g.productions ++ [⟨lhs, rhs⟩] }

/-- `Grammar::set_start_symbol`. -/
def Grammar.set_start_symbol (g : Grammar) (s : Symbol) : Grammar :=
  { g with start_symbol := some s }

/-- `Grammar::productions_for`: all productions with the given lhs, in
list order. -/
def Grammar.productions_for (g : Grammar) (s : Symbol) : List Production :=
  g.productions.filter (fun p => p.lhs == s)

/-- `Grammar::augment`: no-op when already augmented or without a start
symbol; otherwise intern the nonterminal named `S` + apostrophe, add the
production `S1 → S`, move it to the front of the production list (the C++
`std::find` compares `shared_ptr` identity, so exactly the appended
production is moved), replace the start symbol and set the flag. -/
def Grammar.augment (g : Grammar) : Grammar :=
  match g.start_symbol with
  | none => g
  | some s =>
      if g.is_augmented then g
      else
        let ns := g.get_nonterminal (s.name.push apostrophe)
        let new_start := ns.1
        let g1 := ns.2
        { g1 with
            productions := ⟨new_start, [s]⟩ :: g1.productions
          , start_symbol := some new_start
          , is_augmented := true }

/-! ### Set-analysis: nullability, FIRST, FOLLOW

The C++ code stores `std::set<SymbolPtr>` values and iterates
`while (changed)`.  Sets become insertion-ordered duplicate-free lists and
the loops become fuelled iteration (`iterFix`) that stops at the first pass
that changes nothing, exactly as the loops do. -/

/-- `std::set::insert` on the list embedding of a symbol set. -/
def insertSym (l : List Symbol) (s : Symbol) : List Symbol :=
  if l.contains s then l else l ++ [s]

/-- Insert every element of `xs` (left to right). -/
def addAll (l : List Symbol) (xs : List Symbol) : List Symbol :=
  xs.foldl insertSym l

/-- An association map from symbols to symbol sets (the embedding of
`std::unordered_map<SymbolPtr, std::set<SymbolPtr>>`). -/
abbrev SymMap := List (Symbol × List Symbol)

/-- `map::find`: the stored set for a key, or `none`. -/
def mapFind (m : SymMap) (k : Symbol) : Option (List Symbol) :=
  (m.find? (fun e => e.1 == k)).map (·.2)

/-- `map::operator[]` followed by a mutation: rewrite the entry for `k`
through `f`, creating it (from the default empty set) when absent. -/
def mapUpsert (m : SymMap) (k : Symbol) (f : List Symbol → List Symbol) :
    SymMap :=
  match m with
  | [] => [(k, f [])]
  | e :: rest =>
      if e.1 == k then (e.1, f e.2) :: rest
      else e :: mapUpsert rest k f

/-- Generic embedding of a `while (changed)` loop: apply `f` until a pass
changes nothing, giving up (at the current value) when the fuel is spent. -/
def iterFix {α : Type} [DecidableEq α] (f : α → α) : Nat → α → α
  | 0, x => x
  | n + 1, x => if f x = x then x else iterFix f n (f x)

/-- One production's treatment inside the `compute_epsilon_derivers` loop:
skip when the lhs is already marked; mark it when the rhs is empty or the
single epsilon symbol; otherwise mark it when every rhs symbol is neither a
terminal nor end-of-input and is already marked. -/
def epsStep (D : List Symbol) (p : Production) : List Symbol :=
  if D.contains p.lhs then D
  else if p.rhs.isEmpty || p.is_epsilon_production then D ++ [p.lhs]
  else if p.rhs.all (fun s => !s.is_terminal && !s.is_end_of_input && D.contains s) then
    D ++ [p.lhs]
  else D

/-- One full pass of the `compute_epsilon_derivers` loop over the
production list.  The C++ loop updates its map in place, so productions
later in the same pass see earlier updates; the fold threads the set the
same way. -/
def epsPass (g : Grammar) (D : List Symbol) : List Symbol :=
  g.productions.foldl epsStep D

/-- `Grammar::compute_epsilon_derivers`: start from epsilon alone (the
nonterminals are initialised to `false`, i.e. absent) and iterate passes to
the fixed point.  One pass either stabilises or marks at least one more
production lhs, so `|productions| + 1` passes always reach the fixed
point. -/
def compute_epsilon_derivers (g : Grammar) : List Symbol :=
  iterFix (epsPass g) (g.productions.length + 1) [epsilonSymbol]

/-- `Grammar::derives_epsilon(SymbolPtr)`: membership in the computed
nullable set (absent means `false`). -/
def Grammar.derives_epsilon (g : Grammar) (s : Symbol) : Bool :=
  (compute_epsilon_derivers g).contains s

/-- `Grammar::derives_epsilon(vector)`: every symbol derives epsilon. -/
def Grammar.derives_epsilon_list (g : Grammar) (l : List Symbol) : Bool :=
  l.all (fun s => g.derives_epsilon s)

/-- The initial FIRST map of `compute_first_sets`: `{t}` for every
terminal of the symbol table, `{ε}` for epsilon, `{$}` for end-of-input,
and the empty set for every nonterminal. -/
def firstInit (g : Grammar) : SymMap :=
  (g.symbols.filter (fun s => s.is_terminal)).map (fun t => (t, [t]))
    ++ [(epsilonSymbol, [epsilonSymbol]), (endOfInputSymbol, [endOfInputSymbol])]
    ++ (g.symbols.filter (fun s => s.is_nonterminal)).map (fun n => (n, []))

/-- The inner rhs loop of `compute_first_sets` for one production
`A → X₁…Xₖ`: walk the rhs, adding `FIRST(Xᵢ) \ {ε}` to the entry of `A`,
stopping at the first non-nullable `Xᵢ`, and adding ε after the last symbol
when every `Xᵢ` derives epsilon.  (When `Xᵢ = A` the C++ set reference for
the source aliases the destination; copying `FIRST(A) \ {ε}` into
`FIRST(A)` adds nothing, so the snapshot taken here is equivalent.) -/
def firstRhsWalk (g : Grammar) (lhs : Symbol) : SymMap → List Symbol → SymMap
  | m, [] => m
  | m, x :: rest =>
      let fx := (mapFind m x).getD []
      let m1 := mapUpsert m lhs (fun cur => addAll cur (fx.filter (fun s => !s.is_epsilon)))
      if !g.derives_epsilon x then m1
      else if rest.isEmpty then mapUpsert m1 lhs (fun cur => insertSym cur epsilonSymbol)
      else firstRhsWalk g lhs m1 rest

/-- One production's treatment inside the `compute_first_sets` loop:
an empty rhs adds ε to `FIRST(lhs)`, otherwise the rhs walk runs. -/
def firstProd (g : Grammar) (m : SymMap) (p : Production) : SymMap :=
  if p.rhs.isEmpty then mapUpsert m p.lhs (fun cur => insertSym cur epsilonSymbol)
  else firstRhsWalk g p.lhs m p.rhs

/-- One full pass of the `compute_first_sets` loop over the productions. -/
def firstPass (g : Grammar) (m : SymMap) : SymMap :=
  g.productions.foldl (firstProd g) m

/-- Fuel for the FIRST fixed point: every pass that changes the map grows
it (entries only ever gain elements), and the total size is bounded by
(number of keys) × (1 + number of symbols), so this fuel reaches the fixed
point on every grammar whose productions mention table symbols. -/
def firstFuel (g : Grammar) : Nat :=
  let syms := g.symbols.length +
    g.productions.foldl (fun n p => n + 1 + p.rhs.length) 0 + 2
  syms * (syms + 2) + 1

/-- `Grammar::compute_first_sets`: iterate passes to the fixed point. -/
def compute_first_sets (g : Grammar) : SymMap :=
  iterFix (firstPass g) (firstFuel g) (firstInit g)

/-- `Grammar::first_set(SymbolPtr)`: look the symbol up in the computed
FIRST map, returning the empty set when it has no entry. -/
def Grammar.first_set (g : Grammar) (s : Symbol) : List Symbol :=
  (mapFind (compute_first_sets g) s).getD []

/-- `Grammar::first_set(vector)` — FIRST of a sequence: union of
`FIRST(Xᵢ) \ {ε}` over the longest nullable prefix, ε when the walk passes
the last (nullable) symbol, and ε again when the whole sequence (or the
empty sequence) derives epsilon. -/
def firstListWalk (g : Grammar) : List Symbol → List Symbol → List Symbol
  | acc, [] => acc
  | acc, x :: rest =>
      let acc1 := addAll acc ((g.first_set x).filter (fun s => !s.is_epsilon))
      if !g.derives_epsilon x then acc1
      else if rest.isEmpty then insertSym acc1 epsilonSymbol
      else firstListWalk g acc1 rest

def Grammar.first_set_list (g : Grammar) (symbols : List Symbol) : List Symbol :=
  let result := firstListWalk g [] symbols
  if symbols.isEmpty || g.derives_epsilon_list symbols then insertSym result epsilonSymbol
  else result

/-- The initial FOLLOW map of `compute_follow_sets`: the empty set for
every nonterminal of the table, then `$` added to the start symbol's entry
when a start symbol exists. -/
def followInit (g : Grammar) : SymMap :=
  let base : SymMap := (g.symbols.filter (fun s => s.is_nonterminal)).map (fun n => (n, []))
  match g.start_symbol with
  | none => base
  | some s => mapUpsert base s (fun cur => insertSym cur endOfInputSymbol)

/-- The inner position loop of `compute_follow_sets` for a production
`A → αBβ`, walking the rhs suffix by suffix: for a nonterminal `B` with no
`β`, add `FOLLOW(A)`; otherwise add `FIRST(β) \ {ε}` and, when `β` derives
epsilon, also `FOLLOW(A)` (read from the map after the FIRST additions,
exactly as the C++ reference is). -/
def followWalk (g : Grammar) (lhs : Symbol) : SymMap → List Symbol → SymMap
  | m, [] => m
  | m, b :: beta =>
      let m1 :=
        if b.is_nonterminal then
          if beta.isEmpty then
            let fA := (mapFind m lhs).getD []
            mapUpsert m b (fun cur => addAll cur fA)
          else
            let fb := g.first_set_list beta
            let m2 := mapUpsert m b
              (fun cur => addAll cur (fb.filter (fun s => !s.is_epsilon)))
            if g.derives_epsilon_list beta then
              let fA := (mapFind m2 lhs).getD []
              mapUpsert m2 b (fun cur => addAll cur fA)
            else m2
        else m
      followWalk g lhs m1 beta

/-- One full pass of the `compute_follow_sets` loop over the productions. -/
def followPass (g : Grammar) (m : SymMap) : SymMap :=
  g.productions.foldl (fun m p => followWalk g p.lhs m p.rhs) m

/-- `Grammar::compute_follow_sets`: iterate passes to the fixed point
(fuel as for FIRST). -/
def compute_follow_sets (g : Grammar) : SymMap :=
  iterFix (followPass g) (firstFuel g) (followInit g)

/-- `Grammar::follow_set`: look the symbol up in the computed FOLLOW map,
returning the empty set when it has no entry. -/
def Grammar.follow_set (g : Grammar) (s : Symbol) : List Symbol :=
  (mapFind (compute_follow_sets g) s).getD []

/-! ### LR(0) items and automaton -/

/-- `class LR0Item`: a production with a dot position. -/
structure LR0Item where
  production : Production
  dot_position : Nat
deriving DecidableEq, Repr

/-- `LR0Item::is_complete`: the dot is at (or past) the end of the rhs. -/
def LR0Item.is_complete (it : LR0Item) : Bool :=
  it.production.rhs.length ≤ it.dot_position

/-- `LR0Item::next_symbol`: the symbol after the dot, `none` when
complete. -/
def LR0Item.next_symbol (it : LR0Item) : Option Symbol :=
  if it.is_complete then none else it.production.rhs[it.dot_position]?

/-- `LR0Item::advance`. -/
def LR0Item.advance (it : LR0Item) : LR0Item :=
  ⟨it.production, it.dot_position + 1⟩

/-- `std::set` insertion for item lists. -/
def insertItem (l : List LR0Item) (it : LR0Item) : List LR0Item :=
  if l.contains it then l else l ++ [it]

/-- One pass of `LR0Automaton::closure`: for every item with a nonterminal
after the dot, add that nonterminal's productions with the dot at the
left. -/
def closurePass (g : Grammar) (items : List LR0Item) : List LR0Item :=
  items.foldl
    (fun acc it =>
      match it.next_symbol with
      | some ns =>
          if ns.is_nonterminal then
            (g.productions_for ns).foldl (fun a p => insertItem a ⟨p, 0⟩) acc
          else acc
      | none => acc)
    items

/-- `LR0Automaton::closure`: saturate.  A pass only ever adds dot-at-left
items, one per production at most, so `|productions| + 1` passes reach the
fixed point. -/
def closure (g : Grammar) (items : List LR0Item) : List LR0Item :=
  iterFix (closurePass g) (g.productions.length + 1) items

/-- `get_transition_symbols` on an item list: the set of symbols that
appear after a dot.  (The C++ `std::set<SymbolPtr>` iterates in pointer
order, which is unspecified; the embedding uses first-appearance order.) -/
def transitionSymbols (items : List LR0Item) : List Symbol :=
  items.foldl
    (fun acc it => match it.next_symbol with
      | some s => insertSym acc s
      | none => acc)
    []

/-- Set equality of item lists — the meaning of `==` on two
`std::set<LR0Item>` values. -/
def itemSetEq (a b : List LR0Item) : Bool :=
  a.all (fun it => b.contains it) && b.all (fun it => a.contains it)

/-- `class LR0State`. -/
structure LR0State where
  id : Nat
  items : List LR0Item
deriving DecidableEq, Repr

/-- `class LR0Automaton`: states in creation order (`states_[i]` has id
`i`) and the transition map. -/
structure LR0Automaton where
  states : List LR0State
  transitions : List ((Nat × Symbol) × Nat)
deriving DecidableEq, Repr

/-- `LR0Automaton::get_transition`: `-1` when absent. -/
def LR0Automaton.get_transition (a : LR0Automaton) (from_state : Nat) (symbol : Symbol) : Int :=
  match a.transitions.find? (fun e => e.1.1 == from_state && e.1.2 == symbol) with
  | some e => (e.2 : Int)
  | none => -1

/-- Processing of one transition symbol of the state under work in the
`LR0Automaton` constructor: compute goto items, look for an existing state
with the same item set, otherwise create a state with the next id and put
it on the worklist; record the transition. -/
def lr0HandleSymbol (g : Grammar) (st : LR0State)
    (acc : LR0Automaton × List LR0State) (sym : Symbol) :
    LR0Automaton × List LR0State :=
  let auto := acc.1
  let work := acc.2
  let moved := (st.items.filter (fun it => it.next_symbol == some sym)).map
    (fun it => it.advance)
  let goto_items := closure g moved
  match auto.states.find? (fun es => itemSetEq es.items goto_items) with
  | some es =>
      ({ auto with transitions := auto.transitions ++ [((st.id, sym), es.id)] }, work)
  | none =>
      let ns : LR0State := ⟨auto.states.length, goto_items⟩
      ({ states := auto.states ++ [ns]
       , transitions := auto.transitions ++ [((st.id, sym), ns.id)] },
       ns :: work)

/-- The worklist loop of the `LR0Automaton` constructor.  The C++ worklist
is a `std::vector` popped from the back — a LIFO stack; the embedding
keeps the stack top at the list head. -/
def lr0Loop (g : Grammar) : Nat → LR0Automaton → List LR0State → LR0Automaton
  | 0, auto, _ => auto
  | _ + 1, auto, [] => auto
  | fuel + 1, auto, st :: work =>
      let next := (transitionSymbols st.items).foldl (lr0HandleSymbol g st) (auto, work)
      lr0Loop g fuel next.1 next.2

/-- Worklist fuel: one unit per processed state; the number of states is
bounded by the number of item sets. -/
def lr0Fuel (g : Grammar) : Nat :=
  2 ^ (g.productions.foldl (fun n p => n + p.rhs.length + 1) 0) + 1

/-- The body of the `LR0Automaton` constructor given the start production
(what `grammar.productions()[0]` yields): state 0 is the closure of the
dot-at-left item, then the worklist loop runs. -/
def lr0AutomatonFrom (g : Grammar) (p0 : Production) : LR0Automaton :=
  let s0 : LR0State := ⟨0, closure g [⟨p0, 0⟩]⟩
  lr0Loop g (lr0Fuel g) ⟨[s0], []⟩ [s0]

/-- The `LR0Automaton` the constructor builds, as a total function.  The
C++ constructor reads `grammar.productions()[0]` unconditionally; on a
zero-production grammar that is an out-of-bounds read and the dereference
of the resulting garbage handle is undefined behavior — construction does
not complete, which `LALR1Generator.make` models as `none`.  This wrapper
serves the grammars whose construction completes (nonempty productions);
its empty-productions value is an arbitrary placeholder that no completed
construction produces, and the behavior of the program on zero-production
grammars is settled through `LALR1Generator.make`, never through this
placeholder. -/
def lr0Automaton (g : Grammar) : LR0Automaton :=
  match g.productions with
  | [] => ⟨[], []⟩
  | p0 :: _ => lr0AutomatonFrom g p0

/-- Modelled from the spec (§4.3 "Ordering: discover states in BFS order
from state 0"): the same construction as `lr0Automaton` except that the
worklist is a FIFO queue, so states are processed in discovery order.
This definition follows the spec's words and exists only to be compared
with the source's LIFO construction. -/
def lr0LoopBFS (g : Grammar) : Nat → LR0Automaton → List LR0State → LR0Automaton
  | 0, auto, _ => auto
  | _ + 1, auto, [] => auto
  | fuel + 1, auto, st :: work =>
      let next := (transitionSymbols st.items).foldl
        (fun acc sym =>
          let auto := acc.1
          let work := acc.2
          let moved := (st.items.filter (fun it => it.next_symbol == some sym)).map
            (fun it => it.advance)
          let goto_items := closure g moved
          match auto.states.find? (fun es => itemSetEq es.items goto_items) with
          | some es =>
              ({ auto with transitions := auto.transitions ++ [((st.id, sym), es.id)] }, work)
          | none =>
              let ns : LR0State := ⟨auto.states.length, goto_items⟩
              ({ states := auto.states ++ [ns]
               , transitions := auto.transitions ++ [((st.id, sym), ns.id)] },
               work ++ [ns]))
        (auto, work)
      lr0LoopBFS g fuel next.1 next.2

/-- Modelled from the spec: breadth-first variant of the automaton
construction (see `lr0LoopBFS`). -/
def lr0AutomatonBFS (g : Grammar) : LR0Automaton :=
  match g.productions with
  | [] => ⟨[], []⟩
  | p0 :: _ =>
      let s0 : LR0State := ⟨0, closure g [⟨p0, 0⟩]⟩
      lr0LoopBFS g (lr0Fuel g) ⟨[s0], []⟩ [s0]

/-- `class LALR1Generator`: the grammar reference and the LR(0) automaton
the constructor builds eagerly in its initialiser list. -/
structure LALR1Generator where
  grammar : Grammar
  lr0_automaton : LR0Automaton
deriving DecidableEq, Repr

/-- The `LALR1Generator(const Grammar&)` constructor: it runs
`lr0_automaton_(grammar)` before any member function — in particular
before `generate_table` can perform its augmented-grammar check.  The
`LR0Automaton` constructor starts with `grammar.productions()[0]`; on a
grammar with zero productions that read is out of bounds and the
dereference of the garbage `shared_ptr` is undefined behavior, so
construction does not complete: modelled as `none`. -/
def LALR1Generator.make (g : Grammar) : Option LALR1Generator :=
  match g.productions with
  | [] => none
  | p0 :: _ => some ⟨g, lr0AutomatonFrom g p0⟩

/-! ### LALR(1) states and table -/

/-- `class LR1Item`. -/
structure LR1Item where
  production : Production
  dot_position : Nat
  lookahead : Symbol
deriving DecidableEq, Repr

def LR1Item.is_complete (it : LR1Item) : Bool :=
  it.production.rhs.length ≤ it.dot_position

def LR1Item.next_symbol (it : LR1Item) : Option Symbol :=
  if it.is_complete then none else it.production.rhs[it.dot_position]?

/-- The generator detects the augmented start symbol by a trailing
apostrophe in its name (`lhs()->name().back() == …`).  The C++ `back()` on
an empty name is out of bounds; the embedding returns `false` there. -/
def Symbol.has_primed_name (s : Symbol) : Bool :=
  s.name.data.getLast? == some apostrophe

/-- `class LALRState`: an id and the LR(1) items (the core paired with
every assigned lookahead). -/
structure LALRState where
  id : Nat
  items : List LR1Item
deriving DecidableEq, Repr

/-- `LALRState::get_transition_symbols`. -/
def LALRState.get_transition_symbols (st : LALRState) : List Symbol :=
  st.items.foldl
    (fun acc it => match it.next_symbol with
      | some s => insertSym acc s
      | none => acc)
    []

/-- The lookahead set `LALR1Generator::build_lalr_states` assigns to one
LR(0) item: complete augmented item (primed lhs name, rhs of length 1)
gets `{$}`; other complete items get `FOLLOW(lhs)`; a shift item gets the
next terminal itself, or `FIRST(next)` for a nonterminal. -/
def lalrLookaheads (g : Grammar) (it : LR0Item) : List Symbol :=
  if it.is_complete then
    if it.production.lhs.has_primed_name && it.production.rhs.length == 1 then
      [endOfInputSymbol]
    else g.follow_set it.production.lhs
  else
    match it.next_symbol with
    | some ns =>
        if ns.is_terminal then [ns]
        else if ns.is_nonterminal then g.first_set ns
        else []
    | none => []

/-- `LALR1Generator::build_lalr_states`: each LR(0) state becomes an LALR
state with the same id whose LR(1) items pair each LR(0) item with each of
its computed lookaheads.  (An item whose lookahead set is empty contributes
no LR(1) item, exactly as in the C++ `add_lookahead` rebuild.) -/
def build_lalr_states (g : Grammar) (a : LR0Automaton) : List LALRState :=
  a.states.map (fun st =>
    ⟨st.id,
     st.items.foldr
       (fun it acc => (lalrLookaheads g it).map
         (fun la => LR1Item.mk it.production it.dot_position la) ++ acc)
       []⟩)

/-- `enum class ActionType`. -/
inductive ActionType where
  | SHIFT
  | REDUCE
  | ACCEPT
  | ERROR
deriving DecidableEq, Repr

/-- `struct Action`: a type tag and an `int` payload (`-1` when unused). -/
structure Action where
  type : ActionType
  value : Int
deriving DecidableEq, Repr

def Action.is_shift (a : Action) : Bool := a.type == ActionType.SHIFT
def Action.is_reduce (a : Action) : Bool := a.type == ActionType.REDUCE
def Action.is_accept (a : Action) : Bool := a.type == ActionType.ACCEPT
def Action.is_error (a : Action) : Bool := a.type == ActionType.ERROR

/-- One recorded conflict description: `set_action` formats exactly the
state, the terminal and the two actions into the message string; the
embedding records them structurally. -/
structure Conflict where
  state : Nat
  terminal : Symbol
  existing : Action
  incoming : Action
deriving DecidableEq, Repr

/-- `class ParseTable`. -/
structure ParseTable where
  num_states : Nat
  terminals : List Symbol
  nonterminals : List Symbol
  action_table : List ((Nat × Symbol) × Action)
  goto_table : List ((Nat × Symbol) × Nat)
  conflicts : List Conflict
deriving DecidableEq, Repr

/-- `std::map::find` on the action table. -/
def actionFind (tbl : List ((Nat × Symbol) × Action)) (k : Nat × Symbol) :
    Option Action :=
  (tbl.find? (fun e => e.1.1 == k.1 && e.1.2 == k.2)).map (·.2)

/-- `std::map` assignment `m[k] = v`: replace in place or append. -/
def actionStore (tbl : List ((Nat × Symbol) × Action)) (k : Nat × Symbol)
    (v : Action) : List ((Nat × Symbol) × Action) :=
  match tbl with
  | [] => [(k, v)]
  | e :: rest =>
      if e.1.1 == k.1 && e.1.2 == k.2 then (k, v) :: rest
      else e :: actionStore rest k v

def gotoFind (tbl : List ((Nat × Symbol) × Nat)) (k : Nat × Symbol) :
    Option Nat :=
  (tbl.find? (fun e => e.1.1 == k.1 && e.1.2 == k.2)).map (·.2)

def gotoStore (tbl : List ((Nat × Symbol) × Nat)) (k : Nat × Symbol)
    (v : Nat) : List ((Nat × Symbol) × Nat) :=
  match tbl with
  | [] => [(k, v)]
  | e :: rest =>
      if e.1.1 == k.1 && e.1.2 == k.2 then (k, v) :: rest
      else e :: gotoStore rest k v

/-- `ParseTable::set_action`: when the cell already holds a different
action (different type or value), record a conflict description; then
store the new action into the cell unconditionally — the assignment
`action_table_[key] = action` runs after the conflict check. -/
def ParseTable.set_action (t : ParseTable) (state : Nat) (terminal : Symbol)
    (action : Action) : ParseTable :=
  let conflicts :=
    match actionFind t.action_table (state, terminal) with
    | some existing =>
        if existing.type != action.type || existing.value != action.value then
          t.conflicts ++ [⟨state, terminal, existing, action⟩]
        else t.conflicts
    | none => t.conflicts
  { t with
      action_table := actionStore t.action_table (state, terminal) action
    , conflicts := conflicts }

/-- `ParseTable::set_goto`. -/
def ParseTable.set_goto (t : ParseTable) (state : Nat) (nonterminal : Symbol)
    (target : Nat) : ParseTable :=
  { t with goto_table := gotoStore t.goto_table (state, nonterminal) target }

/-- `ParseTable::get_action`: the stored action, or `ERROR` when the cell
was never written. -/
def ParseTable.get_action (t : ParseTable) (state : Nat) (terminal : Symbol) :
    Action :=
  match actionFind t.action_table (state, terminal) with
  | some a => a
  | none => ⟨ActionType.ERROR, -1⟩

/-- `ParseTable::get_goto`: the stored target, or `-1`. -/
def ParseTable.get_goto (t : ParseTable) (state : Nat) (nonterminal : Symbol) :
    Int :=
  match gotoFind t.goto_table (state, nonterminal) with
  | some v => (v : Int)
  | none => -1

/-- `ParseTable::has_conflicts`. -/
def ParseTable.has_conflicts (t : ParseTable) : Bool :=
  !t.conflicts.isEmpty

/-- The action-emission trace: every `set_action` call the generator makes,
in order.  (The C++ code makes these calls on the table; the trace records
them so that properties about "emission" — as opposed to the final cell
contents, which later calls overwrite — can be stated.) -/
abbrev EmissionTrace := List (Nat × Symbol × Action)

/-- The per-LR(1)-item action emission of `LALR1Generator::generate_table`:
complete items with a primed rhs-length-1 production emit Accept on the
item's lookahead; other complete items emit Reduce with the first matching
production index (nothing when the production is not in the list); shift
items with a terminal after the dot emit Shift when the LR(0) transition
exists. -/
def emitForItem (g : Grammar) (auto : LR0Automaton) (sid : Nat)
    (acc : ParseTable × EmissionTrace) (item : LR1Item) :
    ParseTable × EmissionTrace :=
  if item.is_complete then
    if item.production.lhs.has_primed_name && item.production.rhs.length == 1 then
      let a : Action := ⟨ActionType.ACCEPT, -1⟩
      (acc.1.set_action sid item.lookahead a, acc.2 ++ [(sid, item.lookahead, a)])
    else
      match g.productions.findIdx? (fun p => p == item.production) with
      | some i =>
          let a : Action := ⟨ActionType.REDUCE, (i : Int)⟩
          (acc.1.set_action sid item.lookahead a, acc.2 ++ [(sid, item.lookahead, a)])
      | none => acc
  else
    match item.next_symbol with
    | some ns =>
        if ns.is_terminal then
          let ts := auto.get_transition sid ns
          if 0 ≤ ts then
            let a : Action := ⟨ActionType.SHIFT, ts⟩
            (acc.1.set_action sid ns a, acc.2 ++ [(sid, ns, a)])
          else acc
        else acc
    | none => acc

/-- The per-state emission of `generate_table`: all items, then the goto
entries for the nonterminal transition symbols. -/
def emitForState (g : Grammar) (auto : LR0Automaton)
    (acc : ParseTable × EmissionTrace) (st : LALRState) :
    ParseTable × EmissionTrace :=
  let acc1 := st.items.foldl (emitForItem g auto st.id) acc
  st.get_transition_symbols.foldl
    (fun a sym =>
      if sym.is_nonterminal then
        let ts := auto.get_transition st.id sym
        if 0 ≤ ts then (a.1.set_goto st.id sym ts.toNat, a.2) else a
      else a)
    acc1

/-- `LALR1Generator::generate_table`: throw (here: `Except.error`) when
the grammar is not augmented; otherwise build the LALR states over the
LR(0) automaton and fill the table.  The result also carries the emission
trace. -/
def generate_table (g : Grammar) :
    Except String (ParseTable × EmissionTrace) :=
  if !g.is_augmented then
    Except.error "Grammar must be augmented before generating LALR(1) table"
  else
    let auto := lr0Automaton g
    let lalr := build_lalr_states g auto
    let terminals := g.symbols.filter (fun s => s.is_terminal) ++ [endOfInputSymbol]
    let nonterminals := g.symbols.filter (fun s => s.is_nonterminal)
    let t0 : ParseTable := ⟨lalr.length, terminals, nonterminals, [], [], []⟩
    Except.ok (lalr.foldl (emitForState g auto) (t0, []))

/-- `LALR1Generator::generate_table` as the member function it is: the
augmented-grammar check, then the LALR build and emission over the
automaton the constructor stored.  On every generator that construction
actually produces (`LALR1Generator.make`), this agrees with the fused
`generate_table` above. -/
def LALR1Generator.generate_table (gen : LALR1Generator) :
    Except String (ParseTable × EmissionTrace) :=
  if !gen.grammar.is_augmented then
    Except.error "Grammar must be augmented before generating LALR(1) table"
  else
    let auto := gen.lr0_automaton
    let lalr := build_lalr_states gen.grammar auto
    let terminals := gen.grammar.symbols.filter (fun s => s.is_terminal)
      ++ [endOfInputSymbol]
    let nonterminals := gen.grammar.symbols.filter (fun s => s.is_nonterminal)
    let t0 : ParseTable := ⟨lalr.length, terminals, nonterminals, [], [], []⟩
    Except.ok (lalr.foldl (emitForState gen.grammar auto) (t0, []))

/-- The Accept entries of an emission trace. -/
def acceptEmissions (tr : EmissionTrace) : EmissionTrace :=
  tr.filter (fun e => e.2.2.type == ActionType.ACCEPT)

/-! ### Parser driver -/

/-- `struct Token` (token.h): kind tag, lexeme, coordinates. -/
structure Token where
  type : TokenType
  value : String
  line : Nat
  column : Nat
deriving DecidableEq, Repr

/-- `Token::is_eof`. -/
def Token.is_eof (t : Token) : Bool := t.type == EOF_TOKEN

/-- The token a lexer yields once the input is exhausted. -/
def eofToken : Token := ⟨EOF_TOKEN, "", 1, 1⟩

/-- `Lexer::next_token` over a token list: after the last real token the
stream yields EOF tokens indefinitely. -/
def nextToken : List Token → Token × List Token
  | [] => (eofToken, [])
  | t :: ts => (t, ts)

/-- `class ParseNode`: a symbol, a lexeme and ordered children. -/
inductive ParseNode where
  | mk (symbol : Symbol) (value : String) (children : List ParseNode)

def ParseNode.symbol : ParseNode → Symbol
  | .mk s _ _ => s

def ParseNode.value : ParseNode → String
  | .mk _ v _ => v

def ParseNode.children : ParseNode → List ParseNode
  | .mk _ _ c => c

/-- `struct StackElement` (parser.h): state id, optional symbol, optional
node.  The initial frame is `(0, none, none)`. -/
structure StackElement where
  state : Nat
  symbol : Option Symbol
  node : Option ParseNode

/-- `struct ParseResult`: success with the result node, or an error with a
message and coordinates. -/
inductive ParseResult where
  | success (node : Option ParseNode)
  | failed (message : String) (line : Nat) (column : Nat)

def ParseResult.isSuccess : ParseResult → Bool
  | .success _ => true
  | .failed _ _ _ => false

def ParseResult.rootSymbol : ParseResult → Option Symbol
  | .success (some n) => some n.symbol
  | _ => none

/-- The terminal-lookup of the driver loop head: `$` for an EOF token,
otherwise the first symbol-table terminal whose token kind matches. -/
def findTerminal (g : Grammar) (tok : Token) : Option Symbol :=
  if tok.is_eof then some endOfInputSymbol
  else g.symbols.find? (fun s => s.is_terminal && s.token_type == tok.type)

/-- A string of one apostrophe, for reproducing driver messages. -/
def aposStr : String := String.mk [apostrophe]

/-- `LALR1Parser::get_expected_symbols`: terminals (and `$`) whose action
in this state is not `ERROR`. -/
def get_expected_symbols (g : Grammar) (t : ParseTable) (state : Nat) :
    List Symbol :=
  (g.symbols.filter (fun s => s.is_terminal)).filter
      (fun term => !(t.get_action state term).is_error)
    ++ (if !(t.get_action state endOfInputSymbol).is_error then [endOfInputSymbol] else [])

/-- One step of `LALR1Parser::parse_internal`'s `while (true)` loop:
either the loop continues with a new configuration or returns a result. -/
inductive StepResult where
  | more (stack : List StackElement) (current : Token) (rest : List Token)
  | done (result : ParseResult)

/-- The body of the driver loop, dispatching on the action for
(top state, terminal of the current token).  The stack top is the list
head.

* Shift pushes `(target, terminal, leaf node)` and reads the next token.
* Reduce pops exactly `|rhs|` frames (error when fewer frames exist),
  builds the lhs node from the popped nodes in original order (null nodes
  skipped), and pushes the goto target.
* Accept succeeds with the top frame's node whenever the stack has at
  least two frames — no further layout or label check — and fails with
  "Invalid stack state at accept" otherwise.
* Error reports the token and the expected terminals.

The C++ `productions()[action.value]` with an out-of-range index is an
out-of-bounds read; the embedding returns an error result there (no
generated table produces such an index). -/
def parseStep (g : Grammar) (t : ParseTable) (stack : List StackElement)
    (current : Token) (rest : List Token) : StepResult :=
  let current_state := ((stack.head?).map (fun e => e.state)).getD 0
  match findTerminal g current with
  | none =>
      .done (.failed ("Unknown token: " ++ current.value) current.line current.column)
  | some terminal =>
    let action := t.get_action current_state terminal
    match action.type with
    | ActionType.SHIFT =>
        let node := ParseNode.mk terminal current.value []
        let nt := nextToken rest
        .more (⟨action.value.toNat, some terminal, some node⟩ :: stack) nt.1 nt.2
    | ActionType.REDUCE =>
        match g.productions[action.value.toNat]? with
        | none =>
            .done (.failed "Invalid production index" current.line current.column)
        | some production =>
            let k := production.rhs.length
            if stack.length < k then
              .done (.failed "Stack underflow during reduction" current.line current.column)
            else
              let rhs_nodes := (stack.take k).map (fun e => e.node)
              let remaining := stack.drop k
              let lhs_node := ParseNode.mk production.lhs ""
                (rhs_nodes.reverse.filterMap id)
              let state_after_pop := ((remaining.head?).map (fun e => e.state)).getD 0
              let goto_state := t.get_goto state_after_pop production.lhs
              if goto_state < 0 then
                .done (.failed
                  ("No goto entry for state " ++ toString state_after_pop
                    ++ " and symbol " ++ production.lhs.name)
                  current.line current.column)
              else
                .more (⟨goto_state.toNat, some production.lhs, some lhs_node⟩ :: remaining)
                  current rest
    | ActionType.ACCEPT =>
        if 2 ≤ stack.length then
          .done (.success (((stack.head?).map (fun e => e.node)).getD none))
        else
          .done (.failed "Invalid stack state at accept" current.line current.column)
    | ActionType.ERROR =>
        let expected := get_expected_symbols g t current_state
        let expected_symbols := String.intercalate ", " (expected.map (fun s => s.name))
        let msg0 := "Unexpected token " ++ aposStr ++ current.value ++ aposStr
        let msg := if expected_symbols.isEmpty then msg0
          else msg0 ++ ". Expected: " ++ expected_symbols
        .done (.failed msg current.line current.column)

/-- The driver loop with fuel (`while (true)` in the C++ code; `none`
means the fuel ran out before the loop returned). -/
def parseLoop (g : Grammar) (t : ParseTable) :
    Nat → List StackElement → Token → List Token → Option ParseResult
  | 0, _, _, _ => none
  | fuel + 1, stack, current, rest =>
      match parseStep g t stack current rest with
      | .done r => some r
      | .more stack1 current1 rest1 => parseLoop g t fuel stack1 current1 rest1

/-- `LALR1Parser::parse_internal`: initial frame `(0, none, none)`, read
one token, run the loop. -/
def parse_internal (g : Grammar) (t : ParseTable) (tokens : List Token)
    (fuel : Nat) : Option ParseResult :=
  let nt := nextToken tokens
  parseLoop g t fuel [⟨0, none, none⟩] nt.1 nt.2

/-! ### Semantic predicates and reachable grammar states -/

/-- `A ⇒* ε`: the symbol derives the empty string under the grammar's
productions.  Epsilon-typed symbols denote the empty string themselves; a
symbol with a production all of whose rhs symbols derive the empty string
derives it too (an empty rhs vacuously so). -/
inductive DerivesEmpty (g : Grammar) : Symbol → Prop where
  | eps (s : Symbol) : s.is_epsilon = true → DerivesEmpty g s
  | step (p : Production) : p ∈ g.productions →
      (∀ s ∈ p.rhs, DerivesEmpty g s) → DerivesEmpty g p.lhs

/-- Well-formed productions: every lhs is a nonterminal and every rhs
symbol is a terminal, a nonterminal or the epsilon singleton — the shape
of every grammar built through the symbol-table API. -/
def WFGrammar (g : Grammar) : Prop :=
  ∀ p ∈ g.productions, p.lhs.is_nonterminal = true ∧
    ∀ s ∈ p.rhs,
      s.is_terminal = true ∨ s.is_nonterminal = true ∨ s = epsilonSymbol

/-- Grammar states reachable through the public construction API
(`Grammar()`, `get_terminal`, `get_nonterminal`, `add_production`,
`set_start_symbol`, `augment`). -/
inductive Reachable : Grammar → Prop where
  | init : Reachable emptyGrammar
  | get_terminal (g : Grammar) (name : String) (tt : TokenType) :
      Reachable g → Reachable (g.get_terminal name tt).2
  | get_nonterminal (g : Grammar) (name : String) :
      Reachable g → Reachable (g.get_nonterminal name).2
  | add_production (g : Grammar) (lhs : Symbol) (rhs : List Symbol) :
      Reachable g → Reachable (g.add_production lhs rhs)
  | set_start (g : Grammar) (s : Symbol) :
      Reachable g → Reachable (g.set_start_symbol s)
  | augment (g : Grammar) : Reachable g → Reachable g.augment

/-- The candidate pool of the nullability computation: epsilon plus every
production lhs; the computed set always stays inside it. -/
def epsPool (g : Grammar) : List Symbol :=
  epsilonSymbol :: g.productions.map (fun p => p.lhs)

/-- A symbol's entry in a symbol map, defaulting to the empty set. -/
def lookupD (m : SymMap) (s : Symbol) : List Symbol :=
  (mapFind m s).getD []

/-- The per-production condition under which the FIRST loop puts ε into
`FIRST(lhs)`: some production of `A` has an empty rhs or an rhs whose
symbols all derive epsilon. -/
def firstWitness (g : Grammar) (A : Symbol) : Prop :=
  ∃ p ∈ g.productions, p.lhs = A ∧
    (p.rhs = [] ∨ ∀ s ∈ p.rhs, g.derives_epsilon s = true)

/-- The LR(1) items of a state that trigger the generator's Accept branch:
complete, primed lhs name, rhs of length 1. -/
def acceptItems (st : LALRState) : List LR1Item :=
  st.items.filter (fun it =>
    it.is_complete && it.production.lhs.has_primed_name
      && it.production.rhs.length == 1)

/-- The emissions `emitForItem` appends for one item. -/
def itemEmission (g : Grammar) (auto : LR0Automaton) (sid : Nat)
    (item : LR1Item) : EmissionTrace :=
  if item.is_complete then
    if item.production.lhs.has_primed_name && item.production.rhs.length == 1 then
      [(sid, item.lookahead, ⟨ActionType.ACCEPT, -1⟩)]
    else
      match g.productions.findIdx? (fun p => p == item.production) with
      | some i => [(sid, item.lookahead, ⟨ActionType.REDUCE, (i : Int)⟩)]
      | none => []
  else
    match item.next_symbol with
    | some ns =>
        if ns.is_terminal then
          let ts := auto.get_transition sid ns
          if 0 ≤ ts then [(sid, ns, ⟨ActionType.SHIFT, ts⟩)] else []
        else []
    | none => []

/-- The emission trace of a successful `generate_table` run (empty on the
error path). -/
def genTrace (g : Grammar) : EmissionTrace :=
  match generate_table g with
  | Except.ok r => r.2
  | Except.error _ => []

/-- The stack length after a driver step, when the loop continues. -/
def StepResult.stackLength : StepResult → Option Nat
  | .more stack _ _ => some stack.length
  | .done _ => none

/-- The result of a driver step, when the loop returns: whether it
succeeded and the root label of the returned tree. -/
def StepResult.outcome : StepResult → Option (Bool × Option Symbol)
  | .more _ _ _ => none
  | .done r => some (r.isSuccess, r.rootSymbol)

/-! ### Concrete fixtures for witnesses and counterexamples -/

def symS : Symbol := ⟨"S", SymbolType.nonterminal, EOF_TOKEN⟩
def symA : Symbol := ⟨"A", SymbolType.nonterminal, EOF_TOKEN⟩
def symB : Symbol := ⟨"B", SymbolType.nonterminal, EOF_TOKEN⟩
def symE : Symbol := ⟨"E", SymbolType.nonterminal, EOF_TOKEN⟩
def symX : Symbol := ⟨"X", SymbolType.nonterminal, EOF_TOKEN⟩

/-- A user-interned nonterminal whose name is already `E` + apostrophe. -/
def symEp : Symbol := ⟨"E".push apostrophe, SymbolType.nonterminal, EOF_TOKEN⟩

/-- A user-interned nonterminal whose name is `A` + apostrophe. -/
def symAp : Symbol := ⟨"A".push apostrophe, SymbolType.nonterminal, EOF_TOKEN⟩

def termA : Symbol := ⟨"a", SymbolType.terminal, 2⟩
def termB : Symbol := ⟨"b", SymbolType.terminal, 3⟩
def termC : Symbol := ⟨"c", SymbolType.terminal, 4⟩
def termD : Symbol := ⟨"d", SymbolType.terminal, 5⟩
def termNum : Symbol := ⟨"num", SymbolType.terminal, 6⟩

/-- A grammar whose symbol table already holds a nonterminal named
`E` + apostrophe before augmentation (all symbols interned through the
API, start symbol `E`). -/
def gC6 : Grammar :=
  { symbols := [epsilonSymbol, endOfInputSymbol, symE, symEp, termA]
  , productions := [⟨symE, [symEp]⟩, ⟨symEp, [termA]⟩]
  , start_symbol := some symE
  , is_augmented := false }

/-- A grammar with a user nonterminal whose name ends in an apostrophe
(`A` + apostrophe) and a length-1 production for it. -/
def gC5base : Grammar :=
  { symbols := [epsilonSymbol, endOfInputSymbol, symS, symAp, termNum]
  , productions := [⟨symS, [symAp]⟩, ⟨symAp, [termNum]⟩]
  , start_symbol := some symS
  , is_augmented := false }

def gC5 : Grammar := gC5base.augment

/-- `S → a A | b B; A → c; B → d`: two branches of depth two, so
breadth-first and depth-first discovery of LR(0) states differ. -/
def gC7base : Grammar :=
  { symbols := [epsilonSymbol, endOfInputSymbol, symS, symA, symB,
                termA, termB, termC, termD]
  , productions := [⟨symS, [termA, symA]⟩, ⟨symS, [termB, symB]⟩,
                    ⟨symA, [termC]⟩, ⟨symB, [termD]⟩]
  , start_symbol := some symS
  , is_augmented := false }

def gC7 : Grammar := gC7base.augment

/-- A table with no cells yet (for exercising `set_action`). -/
def emptyTable : ParseTable :=
  ⟨1, [termA, endOfInputSymbol], [], [], [], []⟩

/-- `A → ε` stored, as in the source, with the single epsilon symbol on
the rhs. -/
def gC3 : Grammar :=
  { symbols := [epsilonSymbol, endOfInputSymbol, symA, termA]
  , productions := [⟨symA, [epsilonSymbol]⟩]
  , start_symbol := some symA
  , is_augmented := true }

/-- A table dispatching Reduce by production 0 on (state 1, $), with a
goto for `A` out of state 0. -/
def tC3 : ParseTable :=
  ⟨2, [termA, endOfInputSymbol], [symA]
  , [((1, endOfInputSymbol), ⟨ActionType.REDUCE, 0⟩)]
  , [((0, symA), 1)]
  , []⟩

/-- A two-frame stack: the initial frame below one shifted `a` frame. -/
def stackC3 : List StackElement :=
  [⟨1, some termA, some (ParseNode.mk termA "a" [])⟩, ⟨0, none, none⟩]

/-- The nonterminal `S` + apostrophe that augmentation interns for a
start symbol named `S`. -/
def symSp : Symbol := ⟨"S".push apostrophe, SymbolType.nonterminal, EOF_TOKEN⟩

/-- A grammar with user start symbol `S`, supplying the terminal `a` for
token lookup. -/
def gC4 : Grammar :=
  { symbols := [epsilonSymbol, endOfInputSymbol, symS, termA]
  , productions := []
  , start_symbol := some symS
  , is_augmented := false }

/-- A table that shifts `a` twice and then dispatches Accept on `$` with
three frames on the stack. -/
def tC4 : ParseTable :=
  ⟨3, [termA, endOfInputSymbol], []
  , [((0, termA), ⟨ActionType.SHIFT, 1⟩), ((1, termA), ⟨ActionType.SHIFT, 2⟩),
     ((2, endOfInputSymbol), ⟨ActionType.ACCEPT, -1⟩)]
  , []
  , []⟩

def toksC4 : List Token := [⟨2, "a", 1, 1⟩, ⟨2, "a", 1, 3⟩]

/-- The three-frame stack the `toksC4` run carries when Accept is
dispatched. -/
def stackC4acc : List StackElement :=
  [⟨2, some termA, some (ParseNode.mk termA "a" [])⟩,
   ⟨1, some termA, some (ParseNode.mk termA "a" [])⟩,
   ⟨0, none, none⟩]

/-- A well-formed grammar with a nullable nonterminal (`A → ε`). -/
def gC8 : Grammar :=
  { symbols := [epsilonSymbol, endOfInputSymbol, symA, termA]
  , productions := [⟨symA, [epsilonSymbol]⟩]
  , start_symbol := some symA
  , is_augmented := false }

/-! ## Theorems -/

/-! ### Shared helper lemmas -/

theorem actionFind_store_self (tbl : List ((Nat × Symbol) × Action))
    (k : Nat × Symbol) (v : Action) :
    actionFind (actionStore tbl k v) k = some v := by
  induction tbl with
  | nil => simp [actionStore, actionFind, List.find?]
  | cons e rest ih =>
      by_cases h : (e.1.1 == k.1 && e.1.2 == k.2) = true
      · simp [actionStore, h, actionFind, List.find?]
      · simp only [actionStore, h, Bool.if_false_left]
        simp only [actionFind, List.find?, h] at ih ⊢
        simpa [h] using ih

theorem augment_idem (g : Grammar) : g.augment.augment = g.augment := by
  unfold Grammar.augment
  cases hs : g.start_symbol with
  | none => simp [hs]
  | some s =>
      by_cases ha : g.is_augmented
      · simp [ha, hs]
      · simp [ha, hs]

theorem get_terminal_preserves (g : Grammar) (n : String) (tt : TokenType) :
    ((g.get_terminal n tt).2).productions = g.productions
    ∧ ((g.get_terminal n tt).2).start_symbol = g.start_symbol
    ∧ ((g.get_terminal n tt).2).is_augmented = g.is_augmented := by
  unfold Grammar.get_terminal
  cases g.symbols.find? (fun s => s.name == n && s.is_terminal && s.token_type == tt) <;> simp

theorem get_nonterminal_preserves (g : Grammar) (n : String) :
    ((g.get_nonterminal n).2).productions = g.productions
    ∧ ((g.get_nonterminal n).2).start_symbol = g.start_symbol
    ∧ ((g.get_nonterminal n).2).is_augmented = g.is_augmented := by
  unfold Grammar.get_nonterminal
  cases g.symbols.find? (fun s => s.name == n && s.is_nonterminal) <;> simp

/-- API-reachable grammars that carry the augmented flag have a start
symbol and at least one production: only `augment` sets the flag, and it
sets the start symbol and prepends the augmenting production at the same
time, while no other operation removes either. -/
theorem reachable_augmented_complete (g : Grammar) (hr : Reachable g)
    (ha : g.is_augmented = true) :
    g.start_symbol ≠ none ∧ g.productions ≠ [] := by
  induction hr with
  | init => simp [emptyGrammar] at ha
  | get_terminal g n tt _ ih =>
      obtain ⟨hp, hs, hf⟩ := get_terminal_preserves g n tt
      rw [hf] at ha
      obtain ⟨h1, h2⟩ := ih ha
      rw [hp, hs]
      exact ⟨h1, h2⟩
  | get_nonterminal g n _ ih =>
      obtain ⟨hp, hs, hf⟩ := get_nonterminal_preserves g n
      rw [hf] at ha
      obtain ⟨h1, h2⟩ := ih ha
      rw [hp, hs]
      exact ⟨h1, h2⟩
  | add_production g lhs rhs _ ih =>
      simp only [Grammar.add_production] at ha ⊢
      obtain ⟨h1, _⟩ := ih ha
      exact ⟨h1, by simp⟩
  | set_start g s _ ih =>
      simp only [Grammar.set_start_symbol] at ha ⊢
      exact ⟨by simp, (ih ha).2⟩
  | augment g _ ih =>
      cases hs : g.start_symbol with
      | none =>
          simp only [Grammar.augment, hs] at ha ⊢
          exact absurd hs (ih ha).1
      | some s =>
          by_cases hb : g.is_augmented = true
          · simp only [Grammar.augment, hs, hb, if_true]
            exact ⟨by simp [hs], (ih hb).2⟩
          · simp only [Grammar.augment, hs, hb, if_false]
            exact ⟨by simp, by simp⟩

/-! ### C1 — conflict recording and cell contents -/

/-- C1 counterexample: `set_action` on a cell already holding a different
action records the conflict but does NOT keep the first assignment — the
assignment runs unconditionally, so `get_action` afterwards returns the
second action written, not the first. -/
theorem C1_counterexample :
    ((emptyTable.set_action 0 termA ⟨ActionType.SHIFT, 1⟩).set_action 0 termA
        ⟨ActionType.REDUCE, 0⟩).get_action 0 termA = ⟨ActionType.REDUCE, 0⟩
    ∧ ((emptyTable.set_action 0 termA ⟨ActionType.SHIFT, 1⟩).set_action 0 termA
        ⟨ActionType.REDUCE, 0⟩).get_action 0 termA ≠ ⟨ActionType.SHIFT, 1⟩
    ∧ ((emptyTable.set_action 0 termA ⟨ActionType.SHIFT, 1⟩).set_action 0 termA
        ⟨ActionType.REDUCE, 0⟩).conflicts
        = [⟨0, termA, ⟨ActionType.SHIFT, 1⟩, ⟨ActionType.REDUCE, 0⟩⟩] := by
  decide

/-- C1 (amended): when `set_action` hits a cell holding a different
action, a conflict description (state, terminal, existing action, new
action) is recorded and the cell is overwritten with the NEW action, so
`get_action` returns the most recent action written to the cell
(last-assignment semantics). -/
theorem C1_amended (t : ParseTable) (state : Nat) (terminal : Symbol)
    (a existing : Action)
    (hfind : actionFind t.action_table (state, terminal) = some existing)
    (hne : existing ≠ a) :
    (t.set_action state terminal a).conflicts
        = t.conflicts ++ [⟨state, terminal, existing, a⟩]
    ∧ (t.set_action state terminal a).get_action state terminal = a := by
  have hdiff : (existing.type != a.type || existing.value != a.value) = true := by
    rcases existing with ⟨t1, v1⟩
    rcases a with ⟨t2, v2⟩
    simp only [bne_iff_ne, Bool.or_eq_true, ne_eq]
    by_contra hc
    push_neg at hc
    exact hne (by simp [hc.1, hc.2])
  constructor
  · simp [ParseTable.set_action, hfind, hdiff]
  · simp [ParseTable.set_action, ParseTable.get_action, actionFind_store_self]

/-- C1 amended witness at a concrete table: a Shift 1 cell overwritten by
Reduce 0. -/
theorem C1_amended_witness :
    ((emptyTable.set_action 0 termA ⟨ActionType.SHIFT, 1⟩).set_action 0 termA
        ⟨ActionType.REDUCE, 0⟩).conflicts
        = (emptyTable.set_action 0 termA ⟨ActionType.SHIFT, 1⟩).conflicts
            ++ [⟨0, termA, ⟨ActionType.SHIFT, 1⟩, ⟨ActionType.REDUCE, 0⟩⟩]
    ∧ ((emptyTable.set_action 0 termA ⟨ActionType.SHIFT, 1⟩).set_action 0 termA
        ⟨ActionType.REDUCE, 0⟩).get_action 0 termA = ⟨ActionType.REDUCE, 0⟩ :=
  C1_amended (emptyTable.set_action 0 termA ⟨ActionType.SHIFT, 1⟩) 0 termA
    ⟨ActionType.REDUCE, 0⟩ ⟨ActionType.SHIFT, 1⟩ (by decide) (by decide)

/-! ### C2 — incomplete grammars and table generation -/

/-- Whenever construction of the generator completes, the member
`generate_table` agrees with the fused pipeline `generate_table`. -/
theorem make_generate_table_agrees (g : Grammar) (gen : LALR1Generator)
    (hm : LALR1Generator.make g = some gen) :
    gen.generate_table = generate_table g := by
  unfold LALR1Generator.make at hm
  cases hps : g.productions with
  | nil =>
      rw [hps] at hm
      exact absurd hm (by simp)
  | cons p0 rest =>
      rw [hps] at hm
      simp only [Option.some_inj] at hm
      have hauto : lr0Automaton g = lr0AutomatonFrom g p0 := by
        unfold lr0Automaton
        rw [hps]
      rw [← hm]
      unfold LALR1Generator.generate_table generate_table
      rw [hauto]

/-- C2 (code bug): the spec requires table construction to fail with the
grammar-incomplete error for unaugmented, start-less and zero-production
grammars, and the code does so for the first two — but not for the third.
`LALR1Generator`'s constructor eagerly builds the LR(0) automaton before
`generate_table` can run its check, and the automaton constructor reads
`productions()[0]`; on a zero-production grammar that read is out of
bounds and the program's behavior is undefined (modelled: construction
yields `none`), so the required error is never raised there.  For
API-reachable incomplete grammars: zero productions make construction
itself fail, while the remaining incomplete cases (which then do have
productions) produce the grammar-incomplete error. -/
theorem C2_incomplete_grammar (g : Grammar) (hr : Reachable g)
    (h : g.is_augmented = false ∨ g.start_symbol = none ∨ g.productions = []) :
    (g.productions = [] → LALR1Generator.make g = none)
    ∧ (g.productions ≠ [] →
        (LALR1Generator.make g).map (fun gen => gen.generate_table)
          = some (Except.error
              "Grammar must be augmented before generating LALR(1) table")) := by
  constructor
  · intro hp
    unfold LALR1Generator.make
    rw [hp]
  · intro hp
    have hb : g.is_augmented = false := by
      cases hgb : g.is_augmented with
      | false => rfl
      | true =>
          rcases h with h | h | h
          · rw [hgb] at h; exact absurd h (by simp)
          · exact absurd h (reachable_augmented_complete g hr hgb).1
          · exact absurd h hp
    cases hps : g.productions with
    | nil => exact absurd hps hp
    | cons p0 rest =>
        simp [LALR1Generator.make, LALR1Generator.generate_table, hps, hb]

/-- C2 witness at the failing input: the freshly constructed grammar has
zero productions and generator construction itself fails (the
out-of-bounds read), before any grammar-incomplete error could be
raised. -/
theorem C2_incomplete_grammar_witness :
    emptyGrammar.productions = [] ∧ LALR1Generator.make emptyGrammar = none :=
  ⟨rfl, (C2_incomplete_grammar emptyGrammar Reachable.init (Or.inl rfl)).1 rfl⟩

/-! ### C3 — frames popped when reducing an ε-production -/

/-- C3 counterexample: reducing by the production `A → ε` — stored, as in
the source, with the single epsilon symbol on the rhs, so that
`is_epsilon_production` holds — pops ONE frame, not zero: from a two-frame
stack the driver continues with two frames (one popped, one pushed); a
zero-pop reduce would have left three. -/
theorem C3_counterexample :
    (Production.mk symA [epsilonSymbol]).is_epsilon_production = true
    ∧ gC3.productions[(0 : Nat)]? = some (Production.mk symA [epsilonSymbol])
    ∧ tC3.get_action 1 endOfInputSymbol = ⟨ActionType.REDUCE, 0⟩
    ∧ stackC3.length = 2
    ∧ (parseStep gC3 tC3 stackC3 eofToken []).stackLength = some 2 := by
  decide

/-- C3 (amended): a successful Reduce step pops exactly `|rhs|` frames and
pushes one, so the stack length becomes `|stack| - |rhs| + 1`.  For an
ε-production represented with an empty rhs this pops zero frames; for one
represented with the single epsilon symbol on the rhs
(`is_epsilon_production`) it pops one frame. -/
theorem C3_amended (g : Grammar) (t : ParseTable) (stack : List StackElement)
    (current : Token) (rest : List Token) (terminal : Symbol) (iv : Int)
    (p : Production)
    (hterm : findTerminal g current = some terminal)
    (hact : t.get_action (((stack.head?).map (fun e => e.state)).getD 0) terminal
        = ⟨ActionType.REDUCE, iv⟩)
    (hprod : g.productions[iv.toNat]? = some p)
    (hlen : p.rhs.length ≤ stack.length)
    (hgoto : ¬ t.get_goto (((stack.drop p.rhs.length).head?.map
        (fun e => e.state)).getD 0) p.lhs < 0) :
    (parseStep g t stack current rest).stackLength
      = some (stack.length - p.rhs.length + 1) := by
  unfold parseStep
  rw [hterm]
  simp only [hact, hprod]
  have hnl : ¬ stack.length < p.rhs.length := by omega
  simp only [hnl, if_false, hgoto, if_true]
  simp [StepResult.stackLength, List.length_drop]

/-- C3 amended witness: the concrete ε-production scenario, popping one
frame from a two-frame stack. -/
theorem C3_amended_witness :
    (parseStep gC3 tC3 stackC3 eofToken []).stackLength
      = some (stackC3.length - (Production.mk symA [epsilonSymbol]).rhs.length + 1) :=
  C3_amended gC3 tC3 stackC3 eofToken [] endOfInputSymbol 0
    (Production.mk symA [epsilonSymbol]) (by decide) (by decide) (by decide)
    (by decide) (by decide)

/-! ### C4 — the accept-dispatch check -/

/-- C4 counterexample: a parse in which Accept is dispatched with three
frames on the stack (none of them labelled by the start symbol `S`)
succeeds, and the returned tree's root is the terminal `a`, not `S` — the
driver checks only `stack.size() >= 2` at accept and never inspects the
top frame's label. -/
theorem C4_counterexample :
    (parse_internal gC4 tC4 toksC4 10).map (fun r => (r.isSuccess, r.rootSymbol))
      = some (true, some termA)
    ∧ gC4.start_symbol = some symS
    ∧ termA ≠ symS
    ∧ termA.is_nonterminal = false := by
  decide

/-- C4 (amended): when the dispatched action is Accept, the driver
succeeds exactly when the stack has at least two frames — whatever their
symbols — returning the top frame's node unexamined, and fails with the
"Invalid stack state at accept" error only when fewer than two frames
remain. -/
theorem C4_amended (g : Grammar) (t : ParseTable) (stack : List StackElement)
    (current : Token) (rest : List Token) (terminal : Symbol)
    (hterm : findTerminal g current = some terminal)
    (hact : t.get_action (((stack.head?).map (fun e => e.state)).getD 0) terminal
        = ⟨ActionType.ACCEPT, -1⟩) :
    parseStep g t stack current rest
      = if 2 ≤ stack.length then
          StepResult.done (ParseResult.success (((stack.head?).map (fun e => e.node)).getD none))
        else
          StepResult.done (ParseResult.failed "Invalid stack state at accept"
            current.line current.column) := by
  unfold parseStep
  rw [hterm]
  simp only [hact]

/-- C4 amended witness: Accept dispatched on the three-frame stack of the
`toksC4` run succeeds with the top frame's node. -/
theorem C4_amended_witness :
    parseStep gC4 tC4 stackC4acc eofToken []
      = if 2 ≤ stackC4acc.length then
          StepResult.done (ParseResult.success
            (((stackC4acc.head?).map (fun e => e.node)).getD none))
        else
          StepResult.done (ParseResult.failed "Invalid stack state at accept"
            eofToken.line eofToken.column) :=
  C4_amended gC4 tC4 stackC4acc eofToken [] endOfInputSymbol (by decide) (by decide)

/-! ### C5 and C7 counterexamples -/

/-- C5 counterexample: on the augmented grammar `gC5` — whose user
nonterminal `A` + apostrophe has a length-1 production — table
construction emits Accept twice, in two different states (the generator
recognises the augmented production by a trailing apostrophe and an rhs of
length 1, which also matches the user production), refuting "exactly once,
in the (S1 → S •, $) cell and no other". -/
theorem C5_counterexample :
    gC5.is_augmented = true
    ∧ acceptEmissions (genTrace gC5)
        = [(1, endOfInputSymbol, ⟨ActionType.ACCEPT, -1⟩),
           (3, endOfInputSymbol, ⟨ActionType.ACCEPT, -1⟩)] := by
  decide

/-- C7 counterexample: on the augmented grammar `gC7` the canonical
collection the source builds (LIFO worklist) assigns state ids in an order
different from breadth-first discovery: the item sets listed in id order
differ from those of the BFS construction, already at index 4. -/
theorem C7_counterexample :
    ((lr0Automaton gC7).states.map (fun s => s.items))[(4 : Nat)]?
        ≠ ((lr0AutomatonBFS gC7).states.map (fun s => s.items))[(4 : Nat)]?
    ∧ (lr0Automaton gC7).states.map (fun s => s.items)
        ≠ (lr0AutomatonBFS gC7).states.map (fun s => s.items) := by
  decide

/-! ### C6 — augmentation -/

theorem get_nonterminal_fst_spec (g : Grammar) (n : String) :
    (g.get_nonterminal n).1.name = n
    ∧ (g.get_nonterminal n).1.is_nonterminal = true := by
  unfold Grammar.get_nonterminal
  cases hf : g.symbols.find? (fun s => s.name == n && s.is_nonterminal) with
  | none => simp [Symbol.is_nonterminal]
  | some s =>
      have hp := List.find?_some hf
      simp only [Bool.and_eq_true, beq_iff_eq] at hp
      simp [hp.1, hp.2]

theorem get_nonterminal_fresh (g : Grammar) (n : String)
    (hfresh : ∀ t ∈ g.symbols, ¬(t.name = n ∧ t.is_nonterminal = true)) :
    (g.get_nonterminal n).1 ∉ g.symbols := by
  unfold Grammar.get_nonterminal
  cases hf : g.symbols.find? (fun s => s.name == n && s.is_nonterminal) with
  | none =>
      intro hmem
      exact hfresh _ hmem ⟨rfl, rfl⟩
  | some s =>
      have hp := List.find?_some hf
      have hm := List.mem_of_find?_eq_some hf
      simp only [Bool.and_eq_true, beq_iff_eq] at hp
      exact absurd ⟨hp.1, hp.2⟩ (hfresh s hm)

/-- C6 counterexample: `augment` does NOT always create a nonterminal
distinct from every existing symbol — when the symbol table already holds
a nonterminal named `S` + apostrophe, `get_nonterminal` interns onto it:
on `gC6` (start `E`, pre-existing user nonterminal `E` + apostrophe) the
new start symbol of the augmented grammar IS the pre-existing symbol and
no symbol is created at all. -/
theorem C6_counterexample :
    gC6.start_symbol = some symE
    ∧ gC6.is_augmented = false
    ∧ gC6.augment.start_symbol = some symEp
    ∧ symEp ∈ gC6.symbols
    ∧ gC6.augment.symbols = gC6.symbols := by
  decide

/-- C6 (amended): for a grammar with start symbol `S` not yet augmented,
`augment` interns the nonterminal named `S` + apostrophe (creating it —
and then distinct from every existing symbol — only when no nonterminal of
that name exists yet), places `S1 → S` at production index 0, replaces the
start symbol with it, sets the augmented flag, and a second `augment` call
changes nothing. -/
theorem C6_amended (g : Grammar) (s : Symbol)
    (hs : g.start_symbol = some s) (hna : g.is_augmented = false) :
    g.augment.productions
        = Production.mk (g.get_nonterminal (s.name.push apostrophe)).1 [s]
            :: ((g.get_nonterminal (s.name.push apostrophe)).2).productions
    ∧ g.augment.start_symbol = some (g.get_nonterminal (s.name.push apostrophe)).1
    ∧ g.augment.is_augmented = true
    ∧ g.augment.augment = g.augment
    ∧ (g.get_nonterminal (s.name.push apostrophe)).1.name = s.name.push apostrophe
    ∧ (g.get_nonterminal (s.name.push apostrophe)).1.is_nonterminal = true
    ∧ ((∀ t ∈ g.symbols, ¬(t.name = s.name.push apostrophe ∧ t.is_nonterminal = true))
        → (g.get_nonterminal (s.name.push apostrophe)).1 ∉ g.symbols) := by
  refine ⟨?_, ?_, ?_, augment_idem g, (get_nonterminal_fst_spec g _).1,
    (get_nonterminal_fst_spec g _).2, get_nonterminal_fresh g _⟩
  · simp [Grammar.augment, hs, hna]
  · simp [Grammar.augment, hs, hna]
  · simp [Grammar.augment, hs, hna]

/-- C6 amended witness on `gC5base` (start `S`, no primed symbol interned
yet): all conjuncts, including genuine freshness. -/
theorem C6_amended_witness :
    gC5base.augment.productions
        = Production.mk (gC5base.get_nonterminal ("S".push apostrophe)).1 [symS]
            :: ((gC5base.get_nonterminal ("S".push apostrophe)).2).productions
    ∧ gC5base.augment.start_symbol
        = some (gC5base.get_nonterminal ("S".push apostrophe)).1
    ∧ gC5base.augment.is_augmented = true
    ∧ gC5base.augment.augment = gC5base.augment
    ∧ (gC5base.get_nonterminal ("S".push apostrophe)).1.name = "S".push apostrophe
    ∧ (gC5base.get_nonterminal ("S".push apostrophe)).1.is_nonterminal = true
    ∧ ((∀ t ∈ gC5base.symbols,
          ¬(t.name = "S".push apostrophe ∧ t.is_nonterminal = true))
        → (gC5base.get_nonterminal ("S".push apostrophe)).1 ∉ gC5base.symbols) :=
  C6_amended gC5base symS (by decide) (by decide)

/-! ### C9 — total set lookups with empty default -/

/-- C9: `first_set` and `follow_set` are total: a symbol with no entry in
the computed FIRST (respectively FOLLOW) map — e.g. one never interned and
never mentioned in a production — yields the empty set rather than a
failure. -/
theorem C9_default_empty (g : Grammar) (s : Symbol) :
    (mapFind (compute_first_sets g) s = none → g.first_set s = [])
    ∧ (mapFind (compute_follow_sets g) s = none → g.follow_set s = []) := by
  constructor
  · intro h
    simp [Grammar.first_set, h]
  · intro h
    simp [Grammar.follow_set, h]

/-- C9 witness: the nonterminal `X`, absent from the empty grammar's
tables and productions, has no FIRST or FOLLOW entry and both lookups
return the empty set. -/
theorem C9_witness :
    (mapFind (compute_first_sets emptyGrammar) symX = none
      ∧ emptyGrammar.first_set symX = [])
    ∧ (mapFind (compute_follow_sets emptyGrammar) symX = none
      ∧ emptyGrammar.follow_set symX = []) :=
  ⟨⟨by decide, (C9_default_empty emptyGrammar symX).1 (by decide)⟩,
   ⟨by decide, (C9_default_empty emptyGrammar symX).2 (by decide)⟩⟩

/-! ### C10 — augment without a start symbol -/

/-- C10: on a grammar with no start symbol, `augment` returns the grammar
entirely unchanged — same symbols, same productions, same (absent) start
symbol, and the augmented flag still false. -/
theorem C10_augment_noop (g : Grammar) (h : g.start_symbol = none) :
    g.augment = g := by
  simp [Grammar.augment, h]

/-- C10 witness: the freshly constructed grammar. -/
theorem C10_witness :
    emptyGrammar.start_symbol = none ∧ emptyGrammar.augment = emptyGrammar :=
  ⟨rfl, C10_augment_noop emptyGrammar rfl⟩

/-! ### C7 — state-id assignment order -/

theorem head?_append_of_some {α : Type} (l l2 : List α) (x : α)
    (h : l.head? = some x) : (l ++ l2).head? = some x := by
  cases l with
  | nil => simp at h
  | cons a as => simpa using h

theorem lr0HandleSymbol_states (g : Grammar) (st : LR0State)
    (acc : LR0Automaton × List LR0State) (sym : Symbol) :
    (lr0HandleSymbol g st acc sym).1.states = acc.1.states
    ∨ ∃ items, (lr0HandleSymbol g st acc sym).1.states
        = acc.1.states ++ [⟨acc.1.states.length, items⟩] := by
  unfold lr0HandleSymbol
  cases hf : acc.1.states.find? (fun es =>
      itemSetEq es.items (closure g ((st.items.filter
        (fun it => it.next_symbol == some sym)).map (fun it => it.advance)))) with
  | some es =>
      left
      simp only [hf]
  | none =>
      right
      exact ⟨closure g ((st.items.filter (fun it => it.next_symbol == some sym)).map
        (fun it => it.advance)), by simp only [hf]⟩

/-- The invariant the construction maintains: the head state is the
initial one and ids equal positions. -/
theorem lr0_invariant_step (g : Grammar) (s0 : LR0State) (st : LR0State)
    (acc : LR0Automaton × List LR0State) (sym : Symbol)
    (h1 : acc.1.states.head? = some s0)
    (h2 : acc.1.states.map (fun s => s.id) = List.range acc.1.states.length) :
    (lr0HandleSymbol g st acc sym).1.states.head? = some s0
    ∧ (lr0HandleSymbol g st acc sym).1.states.map (fun s => s.id)
        = List.range (lr0HandleSymbol g st acc sym).1.states.length := by
  rcases lr0HandleSymbol_states g st acc sym with h | ⟨items, h⟩
  · rw [h]; exact ⟨h1, h2⟩
  · rw [h]
    refine ⟨head?_append_of_some _ _ _ h1, ?_⟩
    simp only [List.map_append, List.length_append, List.map_cons, List.map_nil,
      List.length_cons, List.length_nil]
    rw [h2, List.range_succ]

theorem lr0_invariant_fold (g : Grammar) (s0 : LR0State) (st : LR0State) :
    ∀ (syms : List Symbol) (acc : LR0Automaton × List LR0State),
    acc.1.states.head? = some s0 →
    acc.1.states.map (fun s => s.id) = List.range acc.1.states.length →
    (syms.foldl (lr0HandleSymbol g st) acc).1.states.head? = some s0
    ∧ (syms.foldl (lr0HandleSymbol g st) acc).1.states.map (fun s => s.id)
        = List.range (syms.foldl (lr0HandleSymbol g st) acc).1.states.length := by
  intro syms
  induction syms with
  | nil => intro acc h1 h2; exact ⟨h1, h2⟩
  | cons sym rest ih =>
      intro acc h1 h2
      obtain ⟨h1a, h2a⟩ := lr0_invariant_step g s0 st acc sym h1 h2
      exact ih _ h1a h2a

theorem lr0_invariant_loop (g : Grammar) (s0 : LR0State) :
    ∀ (fuel : Nat) (auto : LR0Automaton) (work : List LR0State),
    auto.states.head? = some s0 →
    auto.states.map (fun s => s.id) = List.range auto.states.length →
    (lr0Loop g fuel auto work).states.head? = some s0
    ∧ (lr0Loop g fuel auto work).states.map (fun s => s.id)
        = List.range (lr0Loop g fuel auto work).states.length := by
  intro fuel
  induction fuel with
  | zero => intro auto work h1 h2; exact ⟨h1, h2⟩
  | succ n ih =>
      intro auto work h1 h2
      cases work with
      | nil => exact ⟨h1, h2⟩
      | cons st rest =>
          obtain ⟨h1a, h2a⟩ := lr0_invariant_fold g s0 st
            (transitionSymbols st.items) (auto, rest) h1 h2
          exact ih _ _ h1a h2a

/-- C7 (amended): state ids are assigned sequentially in discovery order —
state `i` of the collection carries id `i` — starting from state 0, the
closure of the first (augmented) production with the dot at the left.  The
worklist, however, is popped from the back (LIFO), so discovery follows
depth-first processing, not breadth-first, and the per-state symbol order
iterates a pointer-ordered `std::set`; the resulting numbering is the
construction order shown here, not the BFS order the spec prescribes. -/
theorem C7_amended (g : Grammar) (p0 : Production) (rest : List Production)
    (h : g.productions = p0 :: rest) :
    ((lr0Automaton g).states.head?.map (fun s => (s.id, s.items))
        = some (0, closure g [⟨p0, 0⟩]))
    ∧ ∀ i (hi : i < (lr0Automaton g).states.length),
        ((lr0Automaton g).states.get ⟨i, hi⟩).id = i := by
  have hauto : lr0Automaton g
      = lr0Loop g (lr0Fuel g) ⟨[⟨0, closure g [⟨p0, 0⟩]⟩], []⟩ [⟨0, closure g [⟨p0, 0⟩]⟩] := by
    unfold lr0Automaton lr0AutomatonFrom
    rw [h]
  obtain ⟨h1, h2⟩ := lr0_invariant_loop g ⟨0, closure g [⟨p0, 0⟩]⟩ (lr0Fuel g)
    ⟨[⟨0, closure g [⟨p0, 0⟩]⟩], []⟩ [⟨0, closure g [⟨p0, 0⟩]⟩] (by rfl) (by rfl)
  constructor
  · rw [hauto, h1]
    rfl
  · rw [hauto]
    intro i hi
    have hlen : i < (lr0Loop g (lr0Fuel g) ⟨[⟨0, closure g [⟨p0, 0⟩]⟩], []⟩
        [⟨0, closure g [⟨p0, 0⟩]⟩]).states.length := hi
    have hx : ((lr0Loop g (lr0Fuel g) ⟨[⟨0, closure g [⟨p0, 0⟩]⟩], []⟩
          [⟨0, closure g [⟨p0, 0⟩]⟩]).states.map (fun s => s.id))[i]?
        = some i := by
      rw [h2]
      exact List.getElem?_range hlen
    rw [List.getElem?_map, List.getElem?_eq_getElem hlen] at hx
    rw [List.get_eq_getElem]
    simpa using hx

/-- C7 amended witness on the concrete augmented grammar `gC7`. -/
theorem C7_amended_witness :
    ((lr0Automaton gC7).states.head?.map (fun s => (s.id, s.items))
        = some (0, closure gC7 [⟨Production.mk symSp [symS], 0⟩]))
    ∧ ∀ i (hi : i < (lr0Automaton gC7).states.length),
        ((lr0Automaton gC7).states.get ⟨i, hi⟩).id = i :=
  C7_amended gC7 (Production.mk symSp [symS]) gC7base.productions (by decide)

/-! ### C5 — where Accept is emitted -/

theorem emitForItem_trace (g : Grammar) (auto : LR0Automaton) (sid : Nat)
    (acc : ParseTable × EmissionTrace) (item : LR1Item) :
    (emitForItem g auto sid acc item).2 = acc.2 ++ itemEmission g auto sid item := by
  unfold emitForItem itemEmission
  by_cases hc : item.is_complete = true
  · by_cases hp : (item.production.lhs.has_primed_name
        && item.production.rhs.length == 1) = true
    · simp [hc, hp]
    · cases hidx : g.productions.findIdx? (fun p => p == item.production) with
      | none => simp [hc, hp, hidx]
      | some i => simp [hc, hp, hidx]
  · cases hns : item.next_symbol with
    | none => simp [hc, hns]
    | some ns =>
        by_cases ht : ns.is_terminal = true
        · by_cases hle : (0 : Int) ≤ auto.get_transition sid ns
          · simp [hc, hns, ht, hle]
          · simp [hc, hns, ht, hle]
        · simp [hc, hns, ht]

theorem foldl_emitForItem_trace (g : Grammar) (auto : LR0Automaton) (sid : Nat) :
    ∀ (items : List LR1Item) (acc : ParseTable × EmissionTrace),
    (items.foldl (emitForItem g auto sid) acc).2
      = acc.2 ++ (items.map (itemEmission g auto sid)).flatten := by
  intro items
  induction items with
  | nil => intro acc; simp
  | cons it rest ih =>
      intro acc
      simp only [List.foldl_cons, List.map_cons, List.flatten_cons]
      rw [ih, emitForItem_trace, List.append_assoc]

theorem foldl_snd_const {α β γ : Type} (f : (β × γ) → α → (β × γ))
    (hf : ∀ a x, (f a x).2 = a.2) :
    ∀ (l : List α) (acc : β × γ), (l.foldl f acc).2 = acc.2 := by
  intro l
  induction l with
  | nil => intro acc; rfl
  | cons x rest ih =>
      intro acc
      rw [List.foldl_cons, ih, hf]

theorem emitForState_trace (g : Grammar) (auto : LR0Automaton)
    (acc : ParseTable × EmissionTrace) (st : LALRState) :
    (emitForState g auto acc st).2
      = acc.2 ++ (st.items.map (itemEmission g auto st.id)).flatten := by
  unfold emitForState
  rw [foldl_snd_const _ (by
    intro a x
    dsimp only
    split
    · split
      · rfl
      · rfl
    · rfl)]
  exact foldl_emitForItem_trace g auto st.id st.items acc

theorem foldl_emitForState_trace (g : Grammar) (auto : LR0Automaton) :
    ∀ (states : List LALRState) (acc : ParseTable × EmissionTrace),
    (states.foldl (emitForState g auto) acc).2
      = acc.2 ++ (states.map
          (fun st => (st.items.map (itemEmission g auto st.id)).flatten)).flatten := by
  intro states
  induction states with
  | nil => intro acc; simp
  | cons st rest ih =>
      intro acc
      simp only [List.map_cons, List.flatten_cons, List.foldl_cons]
      rw [ih, emitForState_trace, List.append_assoc]

/-- The full emission trace of a successful generation run: state by
state, item by item. -/
theorem genTrace_eq (g : Grammar) (haug : g.is_augmented = true) :
    genTrace g
      = ((build_lalr_states g (lr0Automaton g)).map
          (fun st => (st.items.map (itemEmission g (lr0Automaton g) st.id)).flatten)).flatten := by
  unfold genTrace generate_table
  simp only [haug, Bool.not_true, Bool.false_eq_true, if_false]
  rw [foldl_emitForState_trace]
  simp

theorem acceptEmissions_append (a b : EmissionTrace) :
    acceptEmissions (a ++ b) = acceptEmissions a ++ acceptEmissions b := by
  simp [acceptEmissions]

theorem acceptEmissions_flatten (L : List EmissionTrace) :
    acceptEmissions L.flatten = (L.map acceptEmissions).flatten := by
  induction L with
  | nil => rfl
  | cons a rest ih =>
      simp only [List.flatten_cons, List.map_cons]
      rw [acceptEmissions_append, ih]

theorem acceptEmissions_itemEmission (g : Grammar) (auto : LR0Automaton)
    (sid : Nat) (item : LR1Item) :
    acceptEmissions (itemEmission g auto sid item)
      = if item.is_complete && item.production.lhs.has_primed_name
            && item.production.rhs.length == 1 then
          [(sid, item.lookahead, ⟨ActionType.ACCEPT, -1⟩)]
        else [] := by
  by_cases hc : item.is_complete = true
  · by_cases hp : (item.production.lhs.has_primed_name
        && item.production.rhs.length == 1) = true
    · simp [itemEmission, hc, hp, acceptEmissions, List.filter]
    · have hall : (item.is_complete && item.production.lhs.has_primed_name
          && item.production.rhs.length == 1) = false := by
        rw [Bool.and_assoc, hc]
        simpa using hp
      cases hidx : g.productions.findIdx? (fun p => p == item.production) with
      | none => simp [itemEmission, hc, hp, hidx, hall, acceptEmissions]
      | some i => simp [itemEmission, hc, hp, hidx, hall, acceptEmissions, List.filter]
  · have hc0 : item.is_complete = false := by simpa using hc
    have hall : (item.is_complete && item.production.lhs.has_primed_name
        && item.production.rhs.length == 1) = false := by
      rw [Bool.and_assoc, hc0]
      rfl
    cases hns : item.next_symbol with
    | none => simp [itemEmission, hc0, hns, hall, acceptEmissions]
    | some ns =>
        by_cases ht : ns.is_terminal = true
        · by_cases hle : (0 : Int) ≤ auto.get_transition sid ns
          · simp [itemEmission, hc0, hns, ht, hle, hall, acceptEmissions, List.filter]
          · simp [itemEmission, hc0, hns, ht, hle, hall, acceptEmissions]
        · simp [itemEmission, hc0, hns, ht, hall, acceptEmissions]

theorem acceptEmissions_state (g : Grammar) (auto : LR0Automaton) (sid : Nat) :
    ∀ (l : List LR1Item),
    acceptEmissions ((l.map (itemEmission g auto sid)).flatten)
      = (l.filter (fun it => it.is_complete && it.production.lhs.has_primed_name
            && it.production.rhs.length == 1)).map
          (fun it => (sid, it.lookahead, (⟨ActionType.ACCEPT, -1⟩ : Action))) := by
  intro l
  induction l with
  | nil => rfl
  | cons it rest ih =>
      simp only [List.map_cons, List.flatten_cons, List.filter_cons]
      rw [acceptEmissions_append, ih, acceptEmissions_itemEmission]
      by_cases hp : (it.is_complete && it.production.lhs.has_primed_name
          && it.production.rhs.length == 1) = true
      · simp [hp]
      · simp [hp]

theorem mem_lalr_items_foldr (g : Grammar) (it : LR1Item) :
    ∀ (l : List LR0Item),
    it ∈ l.foldr (fun it0 acc => (lalrLookaheads g it0).map
        (fun la => LR1Item.mk it0.production it0.dot_position la) ++ acc) []
    ↔ ∃ it0 ∈ l, ∃ la ∈ lalrLookaheads g it0,
        it = LR1Item.mk it0.production it0.dot_position la := by
  intro l
  induction l with
  | nil => simp
  | cons x rest ih =>
      simp only [List.foldr_cons, List.mem_append, List.mem_map, ih]
      constructor
      · rintro (⟨la, hla, heq⟩ | ⟨it0, h0, la, hla, heq⟩)
        · exact ⟨x, List.mem_cons_self x rest, la, hla, heq.symm⟩
        · exact ⟨it0, List.mem_cons_of_mem x h0, la, hla, heq⟩
      · rintro ⟨it0, h0, la, hla, heq⟩
        rcases List.mem_cons.mp h0 with h | h
        · subst h
          exact Or.inl ⟨la, hla, heq.symm⟩
        · exact Or.inr ⟨it0, h, la, hla, heq⟩

/-- Every LR(1) item of a built LALR state that is complete with a primed
lhs name and an rhs of length 1 carries `$` as its lookahead — the
build assigns exactly the singleton `$` lookahead set to such items. -/
theorem accept_item_lookahead (g : Grammar) (a : LR0Automaton)
    (st : LALRState) (it : LR1Item)
    (hst : st ∈ build_lalr_states g a) (hit : it ∈ st.items)
    (hacc : (it.is_complete && it.production.lhs.has_primed_name
        && it.production.rhs.length == 1) = true) :
    it.lookahead = endOfInputSymbol := by
  unfold build_lalr_states at hst
  obtain ⟨st0, _, hsteq⟩ := List.mem_map.mp hst
  rw [← hsteq] at hit
  simp only at hit
  obtain ⟨it0, _, la, hla, heq⟩ := (mem_lalr_items_foldr g it st0.items).mp hit
  rw [heq] at hacc ⊢
  simp only [Bool.and_eq_true] at hacc
  obtain ⟨⟨hc, hp⟩, hlen⟩ := hacc
  have hc0 : it0.is_complete = true := hc
  unfold lalrLookaheads at hla
  rw [hc0] at hla
  simp only [if_true] at hla
  rw [hp, hlen] at hla
  simp only [Bool.and_self, if_true] at hla
  simpa using hla

/-- C5 (amended): `generate_table` emits Accept exactly once for each
LR(1) item that is complete with a primed lhs name and an rhs of length 1,
in that item's state on the item's lookahead, and that lookahead is always
`$`.  When the complete augmented item `S1 → S •` is the only such item
across all states (as it is whenever no user nonterminal name ends in an
apostrophe), Accept is therefore emitted exactly once, in the
(state containing `S1 → S •`, `$`) cell. -/
theorem C5_amended (g : Grammar) (haug : g.is_augmented = true) :
    acceptEmissions (genTrace g)
      = ((build_lalr_states g (lr0Automaton g)).map
          (fun st => (acceptItems st).map
            (fun it => (st.id, it.lookahead, (⟨ActionType.ACCEPT, -1⟩ : Action))))).flatten
    ∧ ∀ st ∈ build_lalr_states g (lr0Automaton g), ∀ it ∈ acceptItems st,
        it.lookahead = endOfInputSymbol := by
  constructor
  · rw [genTrace_eq g haug, acceptEmissions_flatten]
    simp only [List.map_map]
    refine congrArg List.flatten (List.map_congr_left ?_)
    intro st _
    exact acceptEmissions_state g (lr0Automaton g) st.id st.items
  · intro st hst it hit
    unfold acceptItems at hit
    obtain ⟨hmem, hpred⟩ := List.mem_filter.mp hit
    exact accept_item_lookahead g (lr0Automaton g) st it hst hmem hpred

/-- C5 amended witness on the concrete augmented grammar `gC5` (which has
two qualifying items, in states 1 and 3). -/
theorem C5_amended_witness :
    gC5.is_augmented = true
    ∧ (acceptEmissions (genTrace gC5)
        = ((build_lalr_states gC5 (lr0Automaton gC5)).map
            (fun st => (acceptItems st).map
              (fun it => (st.id, it.lookahead, (⟨ActionType.ACCEPT, -1⟩ : Action))))).flatten
      ∧ ∀ st ∈ build_lalr_states gC5 (lr0Automaton gC5), ∀ it ∈ acceptItems st,
          it.lookahead = endOfInputSymbol) :=
  ⟨by decide, C5_amended gC5 (by decide)⟩

/-! ### C8 — nullability, ε ∈ FIRST and ε-derivability agree

The proof first characterises the computed nullable set: it is a fixed
point of `epsPass` (fuel suffices because every non-stabilising pass
lengthens a duplicate-free list drawn from a fixed pool), then sound and
complete for `DerivesEmpty`; ε-membership in the computed FIRST sets is
then tied to the same per-production witness. -/

theorem mem_insertSym {l : List Symbol} {s x : Symbol} :
    x ∈ insertSym l s ↔ x ∈ l ∨ x = s := by
  unfold insertSym
  by_cases h : l.contains s
  · have hs : s ∈ l := List.elem_iff.mp h
    simp only [h, if_true]
    constructor
    · exact Or.inl
    · rintro (hx | hx)
      · exact hx
      · rw [hx]; exact hs
  · have hs : s ∉ l := fun hm => h (List.elem_iff.mpr hm)
    simp [h, hs]

theorem prefix_insertSym (l : List Symbol) (s : Symbol) : l <+: insertSym l s := by
  unfold insertSym
  by_cases h : l.contains s
  · simp only [h, if_true]
    exact List.prefix_rfl
  · simp only [h, if_false]
    exact List.prefix_append l [s]

theorem prefix_addAll (l xs : List Symbol) : l <+: addAll l xs := by
  induction xs generalizing l with
  | nil => exact List.prefix_rfl
  | cons x rest ih =>
      exact (prefix_insertSym l x).trans (ih (insertSym l x))

theorem mem_addAll {l xs : List Symbol} {a : Symbol} :
    a ∈ addAll l xs ↔ a ∈ l ∨ a ∈ xs := by
  induction xs generalizing l with
  | nil => simp [addAll]
  | cons x rest ih =>
      show a ∈ addAll (insertSym l x) rest ↔ _
      rw [ih, mem_insertSym]
      constructor
      · rintro ((h | h) | h)
        · exact Or.inl h
        · exact Or.inr (by rw [h]; exact List.mem_cons_self x rest)
        · exact Or.inr (List.mem_cons_of_mem x h)
      · rintro (h | h)
        · exact Or.inl (Or.inl h)
        · rcases List.mem_cons.mp h with h | h
          · exact Or.inl (Or.inr h)
          · exact Or.inr h

theorem iterFix_invariant {α : Type} [DecidableEq α] (f : α → α) (P : α → Prop)
    (hf : ∀ x, P x → P (f x)) :
    ∀ (n : Nat) (x : α), P x → P (iterFix f n x) := by
  intro n
  induction n with
  | zero => intro x hx; exact hx
  | succ m ih =>
      intro x hx
      unfold iterFix
      by_cases h : f x = x
      · simp only [h, if_true]; exact hx
      · simp only [h, if_false]
        exact ih (f x) (hf x hx)

theorem prefix_iterFix (f : List Symbol → List Symbol)
    (hf : ∀ x, x <+: f x) :
    ∀ (n : Nat) (x : List Symbol), x <+: iterFix f n x := by
  intro n
  induction n with
  | zero => intro x; exact List.prefix_rfl
  | succ m ih =>
      intro x
      unfold iterFix
      by_cases h : f x = x
      · simp only [h, if_true]; exact List.prefix_rfl
      · simp only [h, if_false]
        exact (hf x).trans (ih (f x))

theorem iterFix_fix {α : Type} [DecidableEq α] (f : α → α) (P : α → Prop)
    (μ : α → Nat) (B : Nat)
    (hP : ∀ x, P x → P (f x))
    (hμ : ∀ x, P x → f x ≠ x → μ x < μ (f x))
    (hB : ∀ x, P x → μ x ≤ B) :
    ∀ (n : Nat) (x : α), P x → B < μ x + n → f (iterFix f n x) = iterFix f n x := by
  intro n
  induction n with
  | zero =>
      intro x hx hbound
      exact absurd (hB x hx) (by omega)
  | succ m ih =>
      intro x hx hbound
      unfold iterFix
      by_cases h : f x = x
      · rw [if_pos h]
        exact h
      · rw [if_neg h]
        exact ih (f x) (hP x hx) (by have := hμ x hx h; omega)

theorem iterFix_eq_apply {α : Type} [DecidableEq α] (f : α → α) :
    ∀ (n : Nat) (x : α), 1 ≤ n → ∃ y, iterFix f n x = f y := by
  intro n
  induction n with
  | zero => intro x h; omega
  | succ m ih =>
      intro x _
      unfold iterFix
      by_cases h : f x = x
      · simp only [h, if_true]
        exact ⟨x, h.symm⟩
      · simp only [h, if_false]
        cases m with
        | zero => exact ⟨x, rfl⟩
        | succ m2 => exact ih (f x) (by omega)

theorem foldl_inv_mem {α β : Type} (f : β → α → β) (P : β → Prop) :
    ∀ (l : List α), (∀ b a, a ∈ l → P b → P (f b a)) →
    ∀ b, P b → P (l.foldl f b) := by
  intro l
  induction l with
  | nil => intro _ b hb; exact hb
  | cons a rest ih =>
      intro hstep b hb
      exact ih (fun b x hx => hstep b x (List.mem_cons_of_mem a hx))
        (f b a) (hstep b a (List.mem_cons_self a rest) hb)

theorem prefix_foldl {α : Type} (f : List Symbol → α → List Symbol)
    (hf : ∀ D x, D <+: f D x) :
    ∀ (l : List α) (D : List Symbol), D <+: l.foldl f D := by
  intro l
  induction l with
  | nil => intro D; exact List.prefix_rfl
  | cons a rest ih =>
      intro D
      exact (hf D a).trans (ih (f D a))

theorem foldl_step_eq_of_fix {α : Type} (f : List Symbol → α → List Symbol)
    (hf : ∀ D x, D <+: f D x) :
    ∀ (l : List α) (D : List Symbol), l.foldl f D = D → ∀ x ∈ l, f D x = D := by
  intro l
  induction l with
  | nil => intro D _ x hx; simp at hx
  | cons a rest ih =>
      intro D hfold x hx
      rw [List.foldl_cons] at hfold
      have h1 : f D a <+: rest.foldl f (f D a) := prefix_foldl f hf rest (f D a)
      rw [hfold] at h1
      have h2 : f D a = D :=
        ((hf D a).eq_of_length
          (Nat.le_antisymm (hf D a).length_le h1.length_le)).symm
      rcases List.mem_cons.mp hx with h | h
      · rw [h]
        exact h2
      · refine ih D ?_ x h
        rw [h2] at hfold
        exact hfold

theorem epsStep_cases (D : List Symbol) (p : Production) :
    epsStep D p = D ∨ epsStep D p = D ++ [p.lhs] := by
  unfold epsStep
  split_ifs <;> simp

theorem prefix_epsStep (D : List Symbol) (p : Production) : D <+: epsStep D p := by
  rcases epsStep_cases D p with h | h
  · rw [h]
  · rw [h]
    exact List.prefix_append D [p.lhs]

theorem epsStep_nodup (D : List Symbol) (p : Production) (h : D.Nodup) :
    (epsStep D p).Nodup := by
  unfold epsStep
  by_cases hm : D.contains p.lhs
  · simp only [hm, if_true]
    exact h
  · have hnm : p.lhs ∉ D := fun hx => hm (List.elem_iff.mpr hx)
    simp only [hm, if_false]
    split_ifs <;> simp [List.nodup_append, h, hnm]

theorem epsStep_mem_sub (D : List Symbol) (p : Production) :
    ∀ x ∈ epsStep D p, x ∈ D ∨ x = p.lhs := by
  intro x hx
  rcases epsStep_cases D p with h | h <;> rw [h] at hx
  · exact Or.inl hx
  · rcases List.mem_append.mp hx with h2 | h2
    · exact Or.inl h2
    · exact Or.inr (List.mem_singleton.mp h2)

theorem prefix_epsPass (g : Grammar) (D : List Symbol) : D <+: epsPass g D :=
  prefix_foldl epsStep prefix_epsStep g.productions D

theorem epsPass_good (g : Grammar) (D : List Symbol)
    (h : D.Nodup ∧ ∀ x ∈ D, x ∈ epsPool g) :
    (epsPass g D).Nodup ∧ ∀ x ∈ epsPass g D, x ∈ epsPool g := by
  unfold epsPass
  refine foldl_inv_mem epsStep
    (fun E => E.Nodup ∧ ∀ x ∈ E, x ∈ epsPool g) g.productions ?_ D h
  intro E p hp ⟨h1, h2⟩
  refine ⟨epsStep_nodup E p h1, ?_⟩
  intro x hx
  rcases epsStep_mem_sub E p x hx with hxe | hxl
  · exact h2 x hxe
  · rw [hxl]
    exact List.mem_cons_of_mem _ (List.mem_map.mpr ⟨p, hp, rfl⟩)

/-- The computed nullable set is a fixed point of a full pass. -/
theorem epsFix (g : Grammar) :
    epsPass g (compute_epsilon_derivers g) = compute_epsilon_derivers g := by
  unfold compute_epsilon_derivers
  refine iterFix_fix (epsPass g)
    (fun E => E.Nodup ∧ ∀ x ∈ E, x ∈ epsPool g)
    (fun E => E.length) (epsPool g).length
    (fun E hE => epsPass_good g E hE) ?_ ?_
    (g.productions.length + 1) [epsilonSymbol] ?_ ?_
  · intro E hE hne
    have hpre := prefix_epsPass g E
    have hle := hpre.length_le
    rcases Nat.lt_or_ge E.length (epsPass g E).length with h | h
    · exact h
    · exact absurd (hpre.eq_of_length (Nat.le_antisymm hle h)).symm hne
  · intro E ⟨h1, h2⟩
    exact (h1.subperm h2).length_le
  · refine ⟨List.nodup_singleton _, ?_⟩
    intro x hx
    rw [List.mem_singleton.mp hx]
    exact List.mem_cons_self _ _
  · simp [epsPool]

theorem epsStep_sound (g : Grammar) (D : List Symbol) (p : Production)
    (hp : p ∈ g.productions) (hD : ∀ s ∈ D, DerivesEmpty g s) :
    ∀ s ∈ epsStep D p, DerivesEmpty g s := by
  intro s hs
  unfold epsStep at hs
  by_cases hm : D.contains p.lhs = true
  · rw [if_pos hm] at hs
    exact hD s hs
  · rw [if_neg hm] at hs
    by_cases hb : (p.rhs.isEmpty || p.is_epsilon_production) = true
    · rw [if_pos hb] at hs
      rcases List.mem_append.mp hs with h | h
      · exact hD s h
      · rw [List.mem_singleton.mp h]
        rcases Bool.or_eq_true _ _ |>.mp hb with he | hε
        · have hempty : p.rhs = [] := List.isEmpty_iff.mp he
          refine DerivesEmpty.step p hp ?_
          rw [hempty]
          intro s2 hs2
          simp at hs2
        · unfold Production.is_epsilon_production at hε
          rcases hrhs : p.rhs with _ | ⟨a, rest⟩
          · refine DerivesEmpty.step p hp ?_
            rw [hrhs]
            intro s2 hs2
            simp at hs2
          · rcases rest with _ | ⟨b, rest2⟩
            · refine DerivesEmpty.step p hp ?_
              rw [hrhs]
              intro s2 hs2
              rw [List.mem_singleton.mp hs2]
              refine DerivesEmpty.eps a ?_
              rw [hrhs] at hε
              exact hε
            · rw [hrhs] at hε
              simp at hε
    · rw [if_neg hb] at hs
      by_cases hall : (p.rhs.all
          (fun s => !s.is_terminal && !s.is_end_of_input && D.contains s)) = true
      · rw [if_pos hall] at hs
        rcases List.mem_append.mp hs with h | h
        · exact hD s h
        · rw [List.mem_singleton.mp h]
          refine DerivesEmpty.step p hp ?_
          intro s2 hs2
          have hcond := List.all_eq_true.mp hall s2 hs2
          simp only [Bool.and_eq_true] at hcond
          exact hD s2 (List.elem_iff.mp hcond.2)
      · rw [if_neg hall] at hs
        exact hD s hs

theorem computed_sound (g : Grammar) :
    ∀ s ∈ compute_epsilon_derivers g, DerivesEmpty g s := by
  unfold compute_epsilon_derivers
  refine iterFix_invariant (epsPass g) (fun E => ∀ s ∈ E, DerivesEmpty g s)
    ?_ (g.productions.length + 1) [epsilonSymbol] ?_
  · intro E hE
    unfold epsPass
    refine foldl_inv_mem epsStep (fun E => ∀ s ∈ E, DerivesEmpty g s)
      g.productions ?_ E hE
    intro E2 p hp hE2
    exact epsStep_sound g E2 p hp hE2
  · intro s hs
    rw [List.mem_singleton.mp hs]
    exact DerivesEmpty.eps _ rfl

theorem eps_mem_computed (g : Grammar) :
    epsilonSymbol ∈ compute_epsilon_derivers g := by
  have h : [epsilonSymbol] <+: compute_epsilon_derivers g := by
    unfold compute_epsilon_derivers
    exact prefix_iterFix (epsPass g) (prefix_epsPass g) _ _
  exact h.subset (List.mem_singleton_self _)

theorem epsStep_fix_mem (D : List Symbol) (p : Production)
    (hfix : epsStep D p = D)
    (hcond : (p.rhs.all
        (fun s => !s.is_terminal && !s.is_end_of_input && D.contains s)) = true) :
    p.lhs ∈ D := by
  by_cases hm : D.contains p.lhs = true
  · exact List.elem_iff.mp hm
  · exfalso
    unfold epsStep at hfix
    rw [if_neg hm] at hfix
    by_cases hb : (p.rhs.isEmpty || p.is_epsilon_production) = true
    · rw [if_pos hb] at hfix
      simp at hfix
    · rw [if_neg hb, if_pos hcond] at hfix
      simp at hfix

/-- A terminal symbol never derives the empty string in a well-formed
grammar: the epsilon rule needs an epsilon-typed symbol and every
production lhs is a nonterminal. -/
theorem not_derives_terminal (g : Grammar) (hwf : WFGrammar g) (s : Symbol)
    (ht : s.is_terminal = true) : ¬ DerivesEmpty g s := by
  intro h
  cases h with
  | eps _ hse =>
      unfold Symbol.is_terminal at ht
      unfold Symbol.is_epsilon at hse
      simp only [beq_iff_eq] at ht hse
      rw [ht] at hse
      exact SymbolType.noConfusion hse
  | step q hq _ =>
      have hn := (hwf q hq).1
      unfold Symbol.is_terminal at ht
      unfold Symbol.is_nonterminal at hn
      simp only [beq_iff_eq] at ht hn
      rw [ht] at hn
      exact SymbolType.noConfusion hn

/-- An end-of-input symbol never derives the empty string in a well-formed
grammar. -/
theorem not_derives_eoi (g : Grammar) (hwf : WFGrammar g) (s : Symbol)
    (ht : s.is_end_of_input = true) : ¬ DerivesEmpty g s := by
  intro h
  cases h with
  | eps _ hse =>
      unfold Symbol.is_end_of_input at ht
      unfold Symbol.is_epsilon at hse
      simp only [beq_iff_eq] at ht hse
      rw [ht] at hse
      exact SymbolType.noConfusion hse
  | step q hq _ =>
      have hn := (hwf q hq).1
      unfold Symbol.is_end_of_input at ht
      unfold Symbol.is_nonterminal at hn
      simp only [beq_iff_eq] at ht hn
      rw [ht] at hn
      exact SymbolType.noConfusion hn

theorem derives_mem_computed (g : Grammar) (hwf : WFGrammar g) :
    ∀ (A : Symbol), DerivesEmpty g A →
    (A = epsilonSymbol ∨ A.is_nonterminal = true) →
    A ∈ compute_epsilon_derivers g := by
  intro A h
  induction h with
  | eps s hse =>
      intro hdisj
      rcases hdisj with he | hn
      · rw [he]
        exact eps_mem_computed g
      · exfalso
        unfold Symbol.is_epsilon at hse
        unfold Symbol.is_nonterminal at hn
        simp only [beq_iff_eq] at hse hn
        rw [hse] at hn
        exact SymbolType.noConfusion hn
  | step p hp hall ih =>
      intro _
      -- every rhs symbol belongs to the computed set and is
      -- neither a terminal nor end-of-input
      have hrhs : ∀ s ∈ p.rhs, s ∈ compute_epsilon_derivers g
          ∧ s.is_terminal = false ∧ s.is_end_of_input = false := by
        intro s hs
        rcases (hwf p hp).2 s hs with ht | hn | he
        · exact absurd (hall s hs) (not_derives_terminal g hwf s ht)
        · refine ⟨ih s hs (Or.inr hn), ?_, ?_⟩
          · unfold Symbol.is_nonterminal at hn
            unfold Symbol.is_terminal
            simp only [beq_iff_eq] at hn
            rw [hn]
            rfl
          · unfold Symbol.is_nonterminal at hn
            unfold Symbol.is_end_of_input
            simp only [beq_iff_eq] at hn
            rw [hn]
            rfl
        · refine ⟨ih s hs (Or.inl he), ?_, ?_⟩
          · rw [he]; rfl
          · rw [he]; rfl
      -- the pass is a fixed point, so the marking branch already fired
      have hstep : epsStep (compute_epsilon_derivers g) p
          = compute_epsilon_derivers g :=
        foldl_step_eq_of_fix epsStep prefix_epsStep g.productions
          (compute_epsilon_derivers g) (epsFix g) p hp
      refine epsStep_fix_mem _ p hstep ?_
      rw [List.all_eq_true]
      intro s hs
      obtain ⟨hmem, ht, he⟩ := hrhs s hs
      simp only [Bool.and_eq_true, Bool.not_eq_true']
      exact ⟨⟨ht, he⟩, List.elem_iff.mpr hmem⟩

theorem mapFind_mapUpsert_self (m : SymMap) (k : Symbol)
    (f : List Symbol → List Symbol) :
    mapFind (mapUpsert m k f) k = some (f (lookupD m k)) := by
  induction m with
  | nil => simp [mapUpsert, mapFind, lookupD, List.find?]
  | cons e rest ih =>
      by_cases h : (e.1 == k) = true
      · simp [mapUpsert, h, mapFind, lookupD, List.find?]
      · simp only [mapUpsert, h, Bool.false_eq_true, if_false]
        simp only [mapFind, lookupD, List.find?, h] at ih ⊢
        simpa [h] using ih

theorem lookupD_mapUpsert_self (m : SymMap) (k : Symbol)
    (f : List Symbol → List Symbol) :
    lookupD (mapUpsert m k f) k = f (lookupD m k) := by
  unfold lookupD
  rw [mapFind_mapUpsert_self]
  rfl

theorem lookupD_mapUpsert_other (m : SymMap) (k k2 : Symbol)
    (f : List Symbol → List Symbol) (h : k2 ≠ k) :
    lookupD (mapUpsert m k f) k2 = lookupD m k2 := by
  induction m with
  | nil =>
      simp only [mapUpsert, lookupD, mapFind, List.find?]
      have : (k == k2) = false := by
        simp only [beq_eq_false_iff_ne, ne_eq]
        exact fun he => h he.symm
      simp [this]
  | cons e rest ih =>
      by_cases he : (e.1 == k) = true
      · have hek : e.1 = k := beq_iff_eq.mp he
        have h2 : (k == k2) = false := by
          simp only [beq_eq_false_iff_ne, ne_eq]
          exact fun hx => h hx.symm
        have h3 : (e.1 == k2) = false := by
          rw [hek]
          exact h2
        simp only [mapUpsert, he, if_true]
        simp only [lookupD, mapFind, List.find?, h2, h3]
      · simp only [mapUpsert, he, Bool.false_eq_true, if_false]
        by_cases h4 : (e.1 == k2) = true
        · simp only [lookupD, mapFind, List.find?, h4]
        · simp only [lookupD, mapFind, List.find?, h4] at ih ⊢
          simpa [h4] using ih

theorem lookupD_mapUpsert_subset (m : SymMap) (k k2 : Symbol)
    (f : List Symbol → List Symbol) (hf : ∀ v, v ⊆ f v) :
    lookupD m k2 ⊆ lookupD (mapUpsert m k f) k2 := by
  by_cases h : k2 = k
  · rw [h, lookupD_mapUpsert_self]
    exact hf _
  · rw [lookupD_mapUpsert_other m k k2 f h]
    exact fun a ha => ha

theorem subset_addAll (l xs : List Symbol) : l ⊆ addAll l xs :=
  (prefix_addAll l xs).subset

theorem subset_insertSym (l : List Symbol) (s : Symbol) : l ⊆ insertSym l s :=
  (prefix_insertSym l s).subset

theorem firstRhsWalk_lookup_mono (g : Grammar) (lhs : Symbol) :
    ∀ (suffix : List Symbol) (m : SymMap) (k : Symbol),
    lookupD m k ⊆ lookupD (firstRhsWalk g lhs m suffix) k := by
  intro suffix
  induction suffix with
  | nil => intro m k; exact fun a ha => ha
  | cons x rest ih =>
      intro m k
      unfold firstRhsWalk
      have hm1 : lookupD m k ⊆ lookupD (mapUpsert m lhs
          (fun cur => addAll cur (((mapFind m x).getD []).filter
            (fun s => !s.is_epsilon)))) k :=
        lookupD_mapUpsert_subset m lhs k _ (fun v => subset_addAll v _)
      by_cases hd : g.derives_epsilon x = true
      · simp only [hd, Bool.not_true, Bool.false_eq_true, if_false]
        cases rest with
        | nil =>
            simp only [List.isEmpty_nil, if_true]
            exact fun a ha => lookupD_mapUpsert_subset _ lhs k _
              (fun v => subset_insertSym v _) (hm1 ha)
        | cons y rest2 =>
            simp only [List.isEmpty_cons, Bool.false_eq_true, if_false]
            exact fun a ha => ih _ k (hm1 ha)
      · have hd2 : g.derives_epsilon x = false := by
          cases hx : g.derives_epsilon x
          · rfl
          · exact absurd hx hd
        simp only [hd2, Bool.not_false, if_true]
        exact hm1

theorem firstProd_lookup_mono (g : Grammar) (m : SymMap) (p : Production)
    (k : Symbol) : lookupD m k ⊆ lookupD (firstProd g m p) k := by
  unfold firstProd
  by_cases he : p.rhs.isEmpty = true
  · simp only [he, if_true]
    exact lookupD_mapUpsert_subset m p.lhs k _ (fun v => subset_insertSym v _)
  · simp only [he, Bool.false_eq_true, if_false]
    exact firstRhsWalk_lookup_mono g p.lhs p.rhs m k

theorem foldl_firstProd_lookup_mono (g : Grammar) :
    ∀ (l : List Production) (m : SymMap) (k : Symbol),
    lookupD m k ⊆ lookupD (l.foldl (firstProd g) m) k := by
  intro l
  induction l with
  | nil => intro m k; exact fun a ha => ha
  | cons p rest ih =>
      intro m k
      exact fun a ha => ih (firstProd g m p) k (firstProd_lookup_mono g m p k ha)

theorem firstRhsWalk_eps_self (g : Grammar) (lhs : Symbol) :
    ∀ (suffix : List Symbol) (m : SymMap), suffix ≠ [] →
    (∀ x ∈ suffix, g.derives_epsilon x = true) →
    epsilonSymbol ∈ lookupD (firstRhsWalk g lhs m suffix) lhs := by
  intro suffix
  induction suffix with
  | nil => intro m h; exact absurd rfl h
  | cons x rest ih =>
      intro m _ hall
      have hd : g.derives_epsilon x = true := hall x (List.mem_cons_self x rest)
      unfold firstRhsWalk
      simp only [hd, Bool.not_true, Bool.false_eq_true, if_false]
      cases rest with
      | nil =>
          simp only [List.isEmpty_nil, if_true]
          rw [lookupD_mapUpsert_self]
          exact mem_insertSym.mpr (Or.inr rfl)
      | cons y rest2 =>
          simp only [List.isEmpty_cons, Bool.false_eq_true, if_false]
          exact ih _ (by simp) (fun x2 hx2 => hall x2 (List.mem_cons_of_mem x hx2))

theorem firstProd_eps_self (g : Grammar) (m : SymMap) (p : Production)
    (hcond : p.rhs = [] ∨ ∀ s ∈ p.rhs, g.derives_epsilon s = true) :
    epsilonSymbol ∈ lookupD (firstProd g m p) p.lhs := by
  unfold firstProd
  cases hrhs : p.rhs with
  | nil =>
      simp only [List.isEmpty_nil, if_true]
      rw [lookupD_mapUpsert_self]
      exact mem_insertSym.mpr (Or.inr rfl)
  | cons x rest =>
      simp only [List.isEmpty_cons, Bool.false_eq_true, if_false]
      rcases hcond with he | hall
      · rw [hrhs] at he
        exact absurd he (by simp)
      · rw [← hrhs]
        exact firstRhsWalk_eps_self g p.lhs p.rhs m (by rw [hrhs]; simp) hall

theorem firstPass_eps (g : Grammar) (A : Symbol) (hwit : firstWitness g A) :
    ∀ (m : SymMap), epsilonSymbol ∈ lookupD (firstPass g m) A := by
  obtain ⟨p, hp, hlhs, hcond⟩ := hwit
  unfold firstPass
  subst hlhs
  -- walk the production list to `p`, then ride monotonicity
  have : ∀ (l : List Production), p ∈ l →
      ∀ m, epsilonSymbol ∈ lookupD (l.foldl (firstProd g) m) p.lhs := by
    intro l
    induction l with
    | nil => intro h; simp at h
    | cons a rest ih =>
        intro hmem m
        rcases List.mem_cons.mp hmem with h | h
        · rw [List.foldl_cons]
          refine foldl_firstProd_lookup_mono g rest (firstProd g m a) p.lhs ?_
          rw [← h]
          exact firstProd_eps_self g m p hcond
        · rw [List.foldl_cons]
          exact ih h (firstProd g m a)
  exact fun m => this g.productions hp m

/-- ε reaches the computed FIRST entry of `A` whenever some production of
`A` has an empty or all-nullable rhs: the final map is one full pass
applied to its predecessor, and every pass inserts ε for such a
production. -/
theorem first_set_eps_of_witness (g : Grammar) (A : Symbol)
    (hwit : firstWitness g A) : epsilonSymbol ∈ g.first_set A := by
  unfold Grammar.first_set compute_first_sets
  obtain ⟨y, hy⟩ := iterFix_eq_apply (firstPass g) (firstFuel g) (firstInit g)
    (by unfold firstFuel; exact Nat.le_add_left 1 _)
  rw [hy]
  exact firstPass_eps g A hwit y

theorem firstInit_no_eps (g : Grammar) (A : Symbol)
    (hA : A.is_nonterminal = true) :
    epsilonSymbol ∉ lookupD (firstInit g) A := by
  intro hmem
  unfold lookupD mapFind at hmem
  cases hf : (firstInit g).find? (fun e => e.1 == A) with
  | none => rw [hf] at hmem; simp at hmem
  | some e =>
      rw [hf] at hmem
      simp only [Option.map, Option.getD] at hmem
      have hkey : e.1 = A := by
        have h0 := List.find?_some hf
        simpa using h0
      have hin := List.mem_of_find?_eq_some hf
      unfold firstInit at hin
      rcases List.mem_append.mp hin with h12 | h3
      · rcases List.mem_append.mp h12 with h1 | h2
        · obtain ⟨t, htf, hte⟩ := List.mem_map.mp h1
          have htt := (List.mem_filter.mp htf).2
          rw [← hte] at hkey
          simp only at hkey
          unfold Symbol.is_terminal at htt
          unfold Symbol.is_nonterminal at hA
          simp only [beq_iff_eq] at htt hA
          rw [hkey, hA] at htt
          exact SymbolType.noConfusion htt
        · unfold Symbol.is_nonterminal at hA
          simp only [beq_iff_eq] at hA
          rcases List.mem_cons.mp h2 with h | h
          · rw [h] at hkey
            simp only [epsilonSymbol] at hkey
            rw [← hkey] at hA
            exact SymbolType.noConfusion hA
          · rw [List.mem_singleton.mp h] at hkey
            simp only [endOfInputSymbol] at hkey
            rw [← hkey] at hA
            exact SymbolType.noConfusion hA
      · obtain ⟨n, _, hne⟩ := List.mem_map.mp h3
        rw [← hne] at hmem
        simp at hmem

theorem firstRhsWalk_inv (g : Grammar) (lhs : Symbol) :
    ∀ (suffix : List Symbol) (m : SymMap),
    (∀ A, A.is_nonterminal = true →
        epsilonSymbol ∈ lookupD m A → firstWitness g A) →
    ((∀ x ∈ suffix, g.derives_epsilon x = true) → firstWitness g lhs) →
    ∀ A, A.is_nonterminal = true →
      epsilonSymbol ∈ lookupD (firstRhsWalk g lhs m suffix) A →
      firstWitness g A := by
  intro suffix
  induction suffix with
  | nil => intro m hInv _; exact hInv
  | cons x rest ih =>
      intro m hInv hw
      have hInv1 : ∀ A, A.is_nonterminal = true →
          epsilonSymbol ∈ lookupD (mapUpsert m lhs
            (fun cur => addAll cur (((mapFind m x).getD []).filter
              (fun s => !s.is_epsilon)))) A → firstWitness g A := by
        intro A hA hmem
        by_cases hAl : A = lhs
        · rw [hAl, lookupD_mapUpsert_self] at hmem
          rcases mem_addAll.mp hmem with h | h
          · exact hInv A hA (hAl ▸ h)
          · have := (List.mem_filter.mp h).2
            simp [Symbol.is_epsilon, epsilonSymbol] at this
        · rw [lookupD_mapUpsert_other m lhs A _ hAl] at hmem
          exact hInv A hA hmem
      unfold firstRhsWalk
      by_cases hd : g.derives_epsilon x = true
      · simp only [hd, Bool.not_true, Bool.false_eq_true, if_false]
        cases rest with
        | nil =>
            simp only [List.isEmpty_nil, if_true]
            intro A hA hmem
            by_cases hAl : A = lhs
            · rw [hAl, lookupD_mapUpsert_self] at hmem
              rcases mem_insertSym.mp hmem with h | _
              · exact hInv1 A hA (hAl ▸ h)
              · rw [hAl]
                refine hw ?_
                intro x2 hx2
                rw [List.mem_singleton.mp hx2]
                exact hd
            · rw [lookupD_mapUpsert_other _ lhs A _ hAl] at hmem
              exact hInv1 A hA hmem
        | cons y rest2 =>
            simp only [List.isEmpty_cons, Bool.false_eq_true, if_false]
            refine ih _ hInv1 ?_
            intro hres
            refine hw ?_
            intro x2 hx2
            rcases List.mem_cons.mp hx2 with h | h
            · rw [h]; exact hd
            · exact hres x2 h
      · have hd2 : g.derives_epsilon x = false := by
          cases hx : g.derives_epsilon x
          · rfl
          · exact absurd hx hd
        simp only [hd2, Bool.not_false, if_true]
        exact hInv1

theorem firstProd_inv (g : Grammar) (m : SymMap) (p : Production)
    (hp : p ∈ g.productions)
    (hInv : ∀ A, A.is_nonterminal = true →
        epsilonSymbol ∈ lookupD m A → firstWitness g A) :
    ∀ A, A.is_nonterminal = true →
      epsilonSymbol ∈ lookupD (firstProd g m p) A → firstWitness g A := by
  unfold firstProd
  cases hrhs : p.rhs with
  | nil =>
      simp only [List.isEmpty_nil, if_true]
      intro A hA hmem
      by_cases hAl : A = p.lhs
      · exact ⟨p, hp, hAl.symm, Or.inl hrhs⟩
      · rw [lookupD_mapUpsert_other m p.lhs A _ hAl] at hmem
        exact hInv A hA hmem
  | cons x rest =>
      simp only [List.isEmpty_cons, Bool.false_eq_true, if_false]
      rw [← hrhs]
      refine firstRhsWalk_inv g p.lhs p.rhs m hInv ?_
      intro hall
      exact ⟨p, hp, rfl, Or.inr hall⟩

theorem compute_first_sets_inv (g : Grammar) :
    ∀ A, A.is_nonterminal = true →
      epsilonSymbol ∈ lookupD (compute_first_sets g) A → firstWitness g A := by
  unfold compute_first_sets
  refine iterFix_invariant (firstPass g)
    (fun m => ∀ A, A.is_nonterminal = true →
      epsilonSymbol ∈ lookupD m A → firstWitness g A) ?_ (firstFuel g)
    (firstInit g) ?_
  · intro m hInv
    unfold firstPass
    refine foldl_inv_mem (firstProd g)
      (fun m => ∀ A, A.is_nonterminal = true →
        epsilonSymbol ∈ lookupD m A → firstWitness g A) g.productions ?_ m hInv
    intro m2 p hp hInv2
    exact firstProd_inv g m2 p hp hInv2
  · intro A hA hmem
    exact absurd hmem (firstInit_no_eps g A hA)

/-- The per-production ε-witness is exactly ε-derivability for
nonterminals of a well-formed grammar. -/
theorem firstWitness_iff_derives (g : Grammar) (hwf : WFGrammar g)
    (A : Symbol) (hA : A.is_nonterminal = true) :
    firstWitness g A ↔ DerivesEmpty g A := by
  constructor
  · rintro ⟨p, hp, hlhs, hcond⟩
    refine hlhs ▸ DerivesEmpty.step p hp ?_
    intro s hs
    rcases hcond with he | hall
    · rw [he] at hs; simp at hs
    · have := hall s hs
      unfold Grammar.derives_epsilon at this
      exact computed_sound g s (List.elem_iff.mp this)
  · intro h
    cases h with
    | eps _ hse =>
        unfold Symbol.is_epsilon at hse
        unfold Symbol.is_nonterminal at hA
        simp only [beq_iff_eq] at hse hA
        rw [hse] at hA
        exact absurd hA (fun hx => SymbolType.noConfusion hx)
    | step p hp hall =>
        refine ⟨p, hp, rfl, Or.inr ?_⟩
        intro s hs
        unfold Grammar.derives_epsilon
        refine List.elem_iff.mpr (derives_mem_computed g hwf s (hall s hs) ?_)
        rcases (hwf p hp).2 s hs with ht | hn | he
        · exact absurd (hall s hs) (not_derives_terminal g hwf s ht)
        · exact Or.inr hn
        · exact Or.inl he

/-- C8: for every nonterminal `A` of a well-formed grammar, `A ⇒* ε`,
`ε ∈ FIRST(A)` (as computed) and membership in the computed nullable set
(`derives_epsilon`) are all equivalent. -/
theorem C8_nullability_tfae (g : Grammar) (hwf : WFGrammar g) (A : Symbol)
    (hA : A.is_nonterminal = true) :
    (DerivesEmpty g A ↔ epsilonSymbol ∈ g.first_set A)
    ∧ (DerivesEmpty g A ↔ g.derives_epsilon A = true) := by
  constructor
  · constructor
    · intro h
      exact first_set_eps_of_witness g A
        ((firstWitness_iff_derives g hwf A hA).mpr h)
    · intro h
      exact (firstWitness_iff_derives g hwf A hA).mp
        (compute_first_sets_inv g A hA h)
  · constructor
    · intro h
      unfold Grammar.derives_epsilon
      refine List.elem_iff.mpr (derives_mem_computed g hwf A h (Or.inr hA))
    · intro h
      unfold Grammar.derives_epsilon at h
      exact computed_sound g A (List.elem_iff.mp h)

/-- C8 witness on the concrete grammar `A → ε` (nullable `A`). -/
theorem C8_witness :
    WFGrammar gC8 ∧ symA.is_nonterminal = true
    ∧ ((DerivesEmpty gC8 symA ↔ epsilonSymbol ∈ gC8.first_set symA)
      ∧ (DerivesEmpty gC8 symA ↔ gC8.derives_epsilon symA = true)) :=
  ⟨by unfold WFGrammar; decide, rfl,
   C8_nullability_tfae gC8 (by unfold WFGrammar; decide) symA rfl⟩

end Lalr1
